import Mathlib

/-!
Verification of the mmio MatrixMarketFile library (src/include/mmio/MatrixMarketFile.hpp
and src/src/MatrixMarketFile.cpp).

The memory-mapped file is modelled as a list of characters `data`; a raw pointer
`base_ + off` into the mapping is modelled as the integer offset `off` (pointer
arithmetic on `ptrdiff_t` is integer arithmetic on the offset).  The nullable
base pointer of the handle is modelled by the boolean field `base_` (`true` when
the mapping is live).  Machine integers (`std::int32_t`, `std::ptrdiff_t`) are
modelled as `Int`; none of the verified properties exercises overflow.
-/

namespace Mmio

/-- Character read of `base_[p]`.  Reads are only meaningful for `0 ≤ p < data.length`;
out-of-range indices return `'\x00'`, matching the zero fill a demand-paged mapping
exhibits between the end of the file and the end of the final page. -/
def byteAt (data : List Char) (p : Int) : Char :=
  if 0 ≤ p then data.getD p.toNat '\x00' else '\x00'

/-- State of `mmio::MatrixMarketFile`: row count `n_`, column count `m_`, edge
count `nnz_`, the mapping (`base_` models whether the base pointer is non-null,
`data` the mapped bytes), the byte offset `i_` of the first edge and the byte
count `e_` of the mapped file. -/
structure MatrixMarketFile where
  n_ : Int
  m_ : Int
  nnz_ : Int
  base_ : Bool
  data : List Char
  i_ : Int
  e_ : Int

/-- Recursion core of the backward-scan loop of `MatrixMarketFile::edge`.  The
loop test `i_ <= approx` is carried by the fuel: the loop decrements `approx`
once per iteration, so starting from `fuel = (approx + 1 - i).toNat` the fuel
reaches `0` exactly when `approx` has dropped below `i`, and the function is
structurally recursive (hence reducible by computation). -/
def scanBackAux (data : List Char) : Nat → Int → Int
  | 0, approx => approx + 1
  | Nat.succ k, approx =>
    if byteAt data approx ≠ '\n' then scanBackAux data k (approx - 1)
    else approx + 1

/-- Backward-scan loop of `MatrixMarketFile::edge`:
`while (i_ <= approx && base_[approx] != '\n') --approx; ++approx;`.
The value returned is `approx` after the final increment. -/
def scanBack (data : List Char) (i : Int) (approx : Int) : Int :=
  scanBackAux data ((approx + 1 - i).toNat) approx

/-- Recursion core of `scanBackReads`, fueled exactly like `scanBackAux`. -/
def scanBackReadsAux (data : List Char) : Nat → Int → List Int
  | 0, _ => []
  | Nat.succ k, approx =>
    if byteAt data approx ≠ '\n' then approx :: scanBackReadsAux data k (approx - 1)
    else [approx]

/-- Offsets read from the mapping by the backward-scan loop, in order.  The loop
reads `base_[approx]` exactly when `i_ ≤ approx` held on entry to the condition. -/
def scanBackReads (data : List Char) (i : Int) (approx : Int) : List Int :=
  scanBackReadsAux data ((approx + 1 - i).toNat) approx

/-- `MatrixMarketFile::edge`: find the offset of the nth edge in the file.  The
source computes `base_ + i_`, `base_ + e_` or `base_ + approx`; we return the
offset added to the base pointer.  `std::ptrdiff_t` division truncates toward
zero, hence `Int.tdiv`. -/
def MatrixMarketFile.edge (mm : MatrixMarketFile) (n : Int) : Int :=
  if n = 0 then mm.i_
  else if n = mm.nnz_ then mm.e_
  else
    let bytes := mm.e_ - mm.i_
    let approx := mm.i_ + Int.tdiv (n * bytes) mm.nnz_
    scanBack mm.data mm.i_ approx

/-- Offsets read from the mapping during `MatrixMarketFile::edge n` (the first
two branches perform no reads). -/
def MatrixMarketFile.edgeReads (mm : MatrixMarketFile) (n : Int) : List Int :=
  if n = 0 then []
  else if n = mm.nnz_ then []
  else
    let bytes := mm.e_ - mm.i_
    let approx := mm.i_ + Int.tdiv (n * bytes) mm.nnz_
    scanBackReads mm.data mm.i_ approx

/-- `MatrixMarketFile::release`: `munmap` is invoked when the base pointer is
non-null, and `base_ = nullptr` is executed unconditionally.  Only the base
pointer changes on the handle. -/
def MatrixMarketFile.release (mm : MatrixMarketFile) : MatrixMarketFile :=
  { mm with base_ := false }

/-- Whether a call to `release` on this handle state invokes `munmap`
(the guard `base_ && munmap(...)` of the source). -/
def MatrixMarketFile.releaseUnmaps (mm : MatrixMarketFile) : Bool :=
  mm.base_

/-- `MatrixMarketFile::~MatrixMarketFile` simply calls `release()`. -/
def MatrixMarketFile.destructor (mm : MatrixMarketFile) : MatrixMarketFile :=
  mm.release

/-- Whitespace predicate of the C locale, used by `strtol`/`strtod` to skip
leading whitespace. -/
def isSpace (c : Char) : Bool :=
  c == ' ' || c == '\t' || c == '\n' || c == '\x0B' || c == '\x0C' || c == '\r'

/-- Numeric value of a list of decimal digits, most significant first. -/
def digitsVal (ds : List Char) : Nat :=
  ds.foldl (fun a c => 10 * a + (c.toNat - 48)) 0

/-- Optional sign at the head of a token: returns the sign and the remainder. -/
def splitSign (s : List Char) : Int × List Char :=
  match s with
  | c :: t => if c = '+' then (1, t) else if c = '-' then (-1, t) else (1, c :: t)
  | [] => (1, [])

/-- Model of `std::strtol(i, &e, 10)`: skip whitespace, read an optional sign
and a run of decimal digits; when no digit is found, no conversion is performed,
the end pointer is the original pointer and the value is zero.  The result is
the converted value and the suffix starting at the end pointer.  Overflow
clamping to `LONG_MIN`/`LONG_MAX` is not modelled; no verified property
exercises values outside the `long` range. -/
def strtol (s : List Char) : Int × List Char :=
  let s1 := s.dropWhile isSpace
  let p := splitSign s1
  let ds := p.2.takeWhile Char.isDigit
  if ds = [] then (0, s)
  else (p.1 * (digitsVal ds : Int), p.2.dropWhile Char.isDigit)

/-- Model of `std::strtoul(i, &e, 10)`: the subject sequence is the same as for
`strtol` (a leading minus sign is accepted and the value is negated in
`unsigned long` arithmetic, i.e. modulo `2 ^ 64`).  Overflow clamping to
`ULONG_MAX` is not modelled; no verified property exercises it. -/
def strtoul (s : List Char) : Int × List Char :=
  let s1 := s.dropWhile isSpace
  let p := splitSign s1
  let ds := p.2.takeWhile Char.isDigit
  if ds = [] then (0, s)
  else (Int.emod (p.1 * (digitsVal ds : Int)) (2 ^ 64), p.2.dropWhile Char.isDigit)

/-- Exact rational value of a parsed decimal literal with sign `sgn`, integer
digits `ip`, fraction digits `fp` and exponent `ex`, that is
`sgn * (ip.fp) * 10 ^ ex`.  The value is assembled with `mkRat` over integer
arithmetic (rather than through the field operations of `ℚ`) so that it
reduces by kernel computation. -/
def decValue (sgn : Int) (ip fp : List Char) (ex : Int) : ℚ :=
  let m : Int := sgn * ((digitsVal ip : Int) * 10 ^ fp.length + (digitsVal fp : Int))
  if 0 ≤ ex then mkRat (m * 10 ^ ex.toNat) (10 ^ fp.length)
  else mkRat m (10 ^ fp.length * 10 ^ (-ex).toNat)

/-- Fraction part of the `strtod` grammar: a decimal point followed by a digit
run; absent when the next character is not a point. -/
def fracPart (r1 : List Char) : List Char × List Char :=
  match r1 with
  | c :: t => if c = '.' then (t.takeWhile Char.isDigit, t.dropWhile Char.isDigit) else ([], c :: t)
  | [] => ([], [])

/-- Exponent part of the `strtod` grammar: consumed only when an `e`/`E` is
followed (after an optional sign) by at least one digit; otherwise nothing of
it belongs to the subject sequence. -/
def expPart (r2 : List Char) : Int × List Char :=
  match r2 with
  | c :: t =>
    if c = 'e' ∨ c = 'E' then
      let q := splitSign t
      let eds := q.2.takeWhile Char.isDigit
      if eds = [] then (0, c :: t)
      else (q.1 * (digitsVal eds : Int), q.2.dropWhile Char.isDigit)
    else (0, c :: t)
  | [] => (0, [])

/-- Model of `std::strtod(i, &e)` on its decimal grammar: skip whitespace, then
an optional sign, a nonempty digit sequence optionally containing one decimal
point, and an optional exponent part (`e`/`E`, optional sign, nonempty digit
run; the exponent is part of the subject sequence only when its digit run is
nonempty).  When the mantissa has no digit, no conversion is performed and the
end pointer is the original pointer.  The value is modelled as the exact
decimal rational; rounding to binary64 is not modelled.  The C99 hexadecimal,
infinity and NaN subject sequences that `std::strtod` additionally accepts are
not modelled: on inputs whose sign-stripped body begins one of them the real
end pointer moves further than this model's.  Every verified consumption
property about the floating-point getters is therefore guarded by `noSpecial`,
which restricts the statement to the decimal domain, where this model and the
C library agree exactly; the only unguarded uses are at concrete decimal
inputs. -/
def strtod (s : List Char) : ℚ × List Char :=
  let s1 := s.dropWhile isSpace
  let p := splitSign s1
  let ip := p.2.takeWhile Char.isDigit
  let r1 := p.2.dropWhile Char.isDigit
  let fr := fracPart r1
  if ip = [] ∧ fr.1 = [] then (0, s)
  else
    let er := expPart fr.2
    (decValue p.1 ip fr.1 er.1, er.2)

/-- Model of `std::strtof(i, &e)`: the subject sequence is identical to the one
of `strtod`, so the model shares `strtod`'s decimal domain and its unmodelled
C99 hexadecimal/infinity/NaN forms, excluded by the same `noSpecial` guard;
the value (here the exact decimal rational) differs from `strtod` only by
rounding to binary32, which is not modelled. -/
def strtof (s : List Char) : ℚ × List Char :=
  strtod s

/-- Truncation of a rational toward zero, the C semantics of converting a
floating-point value to an integer type. -/
def ratTrunc (q : ℚ) : Int :=
  Int.tdiv q.num (q.den : Int)

/-- Reading a token as `std::int32_t` in `edge_iterator::get`.  In the source
the `int32_t` case is a standalone `if constexpr`, so after `u = strtol(...)`
the following `if constexpr` chain also runs and its final `else` executes
`u = strtod(i, &e)`: both the value (the double truncated toward zero) and the
end pointer come from `strtod`, and the `strtol` result is dead.  Conversion of
an out-of-`int32`-range double is undefined behaviour and is not modelled; no
verified property exercises it. -/
def getI32 (s : List Char) : Int × List Char :=
  let _dead := strtol s
  let r := strtod s
  (ratTrunc r.1, r.2)

/-- Reading a token as `std::uint32_t`: `strtoul`, narrowed to 32 bits. -/
def getU32 (s : List Char) : Int × List Char :=
  let r := strtoul s
  (Int.emod r.1 (2 ^ 32), r.2)

/-- Reading a token as `std::int64_t`: `strtol` (on LP64, `long` is 64 bits). -/
def getI64 (s : List Char) : Int × List Char :=
  strtol s

/-- Reading a token as `std::uint64_t`: `strtoul`. -/
def getU64 (s : List Char) : Int × List Char :=
  strtoul s

/-- Reading a token as `float`: `strtof`. -/
def getF32 (s : List Char) : ℚ × List Char :=
  strtof s

/-- Reading a token as `double`: `strtod` (the final `else` of the chain). -/
def getF64 (s : List Char) : ℚ × List Char :=
  strtod s

/-- The attribute types an `edge_iterator` can be instantiated with. -/
inductive AttrTy where
  | i32
  | u32
  | i64
  | u64
  | f32
  | f64
deriving DecidableEq

/-- A parsed attribute value: integer types produce integers, floating types
produce (exact) rationals. -/
inductive AttrVal where
  | ofInt : Int → AttrVal
  | ofRat : ℚ → AttrVal
deriving DecidableEq

/-- Dispatch of `edge_iterator::get<U>` on the attribute type. -/
def getAttr : AttrTy → List Char → AttrVal × List Char
  | AttrTy.i32, s => let r := getI32 s; (AttrVal.ofInt r.1, r.2)
  | AttrTy.u32, s => let r := getU32 s; (AttrVal.ofInt r.1, r.2)
  | AttrTy.i64, s => let r := getI64 s; (AttrVal.ofInt r.1, r.2)
  | AttrTy.u64, s => let r := getU64 s; (AttrVal.ofInt r.1, r.2)
  | AttrTy.f32, s => let r := getF32 s; (AttrVal.ofRat r.1, r.2)
  | AttrTy.f64, s => let r := getF64 s; (AttrVal.ofRat r.1, r.2)

/-- The pack expansion `get<Vs>(i)...` of `operator*`: parse one token per
declared attribute type, left to right, threading the scan pointer. -/
def getAttrs : List AttrTy → List Char → List AttrVal
  | [], _ => []
  | t :: ts, s => let r := getAttr t s; r.1 :: getAttrs ts r.2

/-- One parsed edge record: zero-based row, zero-based column, attributes. -/
structure EdgeRecord where
  row : Int
  col : Int
  attrs : List AttrVal
deriving DecidableEq

/-- `edge_iterator::operator*`: parse the row and column as `int32_t`
subtracting one from each, then the requested attributes, starting from a copy
of the cursor (the cursor itself is not moved). -/
def derefEdge (Vs : List AttrTy) (s : List Char) : EdgeRecord :=
  let r1 := getI32 s
  let r2 := getI32 r1.2
  { row := r1.1 - 1, col := r2.1 - 1, attrs := getAttrs Vs r2.2 }

/-- Offset of the first `'\n'` at or after offset `p`, as computed by
`std::strchr(i_, '\n')`.  When no newline exists at or after `p` the source
`strchr` returns `NULL` and the subsequent increment is undefined behaviour;
the model then returns `data.length`, which no verified property relies on. -/
def strchrNL (data : List Char) (p : Int) : Int :=
  p + (((data.drop p.toNat).takeWhile (fun c => c ≠ '\n')).length : Int)

/-- `edge_iterator::operator++`: `++(i_ = std::strchr(i_, '\n'))` — move the
cursor one byte past the next newline. -/
def nextEdge (data : List Char) (p : Int) : Int :=
  strchrNL data p + 1

/-- Cursor position after `m` applications of `operator++` starting at `p`. -/
def iterPos (data : List Char) : Nat → Int → Int
  | 0, p => p
  | Nat.succ m, p => iterPos data m (nextEdge data p)

/-- Records produced by iterating from cursor `pos` until it equals `stop`,
dereferencing before each increment.  The `fuel` argument bounds the number of
steps: the C++ loop `for (it = begin; it != end; ++it)` does not terminate by
itself when the end cursor is never hit exactly. -/
def iterRecords (Vs : List AttrTy) (data : List Char) :
    Nat → Int → Int → List EdgeRecord
  | 0, _, _ => []
  | Nat.succ fuel, pos, stop =>
    if pos = stop then []
    else derefEdge Vs (data.drop pos.toNat) :: iterRecords Vs data fuel (nextEdge data pos) stop

/-- Well-formed text line: nonempty, terminated by `'\n'`, with no interior
newline. -/
def lineOk (l : List Char) : Bool :=
  l.dropLast.all (fun c => c ≠ '\n') && (l.getLast? == some '\n')

/-- An `edge_range`: a begin cursor and an end cursor (offsets into the mapping). -/
structure EdgeRange where
  begin_ : Int
  end_ : Int
deriving DecidableEq

/-- `edges(mm, j, k)`: the sub-range of edges `[j, k)`. -/
def edges (mm : MatrixMarketFile) (j k : Int) : EdgeRange :=
  { begin_ := mm.edge j, end_ := mm.edge k }

/-- `edges(mm)`: the full range of edges, from `edge(0)` to `edge(getNEdges())`. -/
def edgesAll (mm : MatrixMarketFile) : EdgeRange :=
  { begin_ := mm.edge 0, end_ := mm.edge mm.nnz_ }

/-- Nonempty run of decimal digits. -/
def isDigits (l : List Char) : Bool :=
  !l.isEmpty && l.all Char.isDigit

/-- Recognizer for the optionally signed decimal integer grammar of the
specification: `[+|-] digit+`. -/
def isIntTok (l : List Char) : Bool :=
  match l with
  | c :: t => if c = '+' ∨ c = '-' then isDigits t else isDigits (c :: t)
  | [] => false

/-- Recognizer for a decimal mantissa: digit and decimal-point characters only,
at most one point, at least one digit. -/
def isMant (l : List Char) : Bool :=
  l.all (fun c => Char.isDigit c || c == '.') && decide (l.count '.' ≤ 1) && l.any Char.isDigit

/-- Recognizer for an exponent part: `e`/`E`, an optional sign, then a nonempty
digit run making up the rest. -/
def isExpTail (l : List Char) : Bool :=
  match l with
  | c :: t => decide (c = 'e' ∨ c = 'E') && isDigits (splitSign t).2
  | [] => false

/-- Unsigned part of the floating-point grammar: the maximal digit/point run
must form a mantissa and the remainder, when nonempty, must be an exponent
part.  The split is unique because an exponent part never starts with a digit
or a decimal point. -/
def floatBody (b : List Char) : Bool :=
  isMant (b.takeWhile (fun c => Char.isDigit c || c == '.')) &&
    ((b.dropWhile (fun c => Char.isDigit c || c == '.')).isEmpty ||
      isExpTail (b.dropWhile (fun c => Char.isDigit c || c == '.')))

/-- Recognizer for the decimal/exponential floating-point grammar of the
specification: `[+|-] mantissa [exponent]`. -/
def isFloatTok (l : List Char) : Bool :=
  floatBody (splitSign l).2

/-- Length of the longest prefix of `s` accepted by the recognizer `tok`. -/
def maxTokLen (tok : List Char → Bool) (s : List Char) : Nat :=
  Nat.findGreatest (fun n => tok (s.take n) = true) s.length

/-- Suffix left over after consuming, per the specification reading, leading
whitespace followed by the longest prefix in the given token grammar; when that
longest prefix is empty nothing at all is consumed. -/
def specRest (tok : List Char → Bool) (s : List Char) : List Char :=
  let s1 := s.dropWhile isSpace
  let L := maxTokLen tok s1
  if L = 0 then s else s1.drop L

/-- Hexadecimal digit. -/
def isHexDig (c : Char) : Bool :=
  Char.isDigit c || ('a' ≤ c && c ≤ 'f') || ('A' ≤ c && c ≤ 'F')

/-- The sign-stripped body begins a C99 hexadecimal floating subject sequence:
`0x`/`0X` followed by a hexadecimal mantissa digit, directly or after a
decimal point. -/
def hexStart (b : List Char) : Bool :=
  match b with
  | c0 :: c1 :: t =>
    c0 == '0' && (c1 == 'x' || c1 == 'X') &&
      (match t with
       | c2 :: t2 =>
         isHexDig c2 || (c2 == '.' && (match t2 with
           | c3 :: _ => isHexDig c3
           | [] => false))
       | [] => false)
  | _ => false

/-- The sign-stripped body begins the case-insensitive keyword `inf` of the
C99 infinity subject sequences. -/
def infStart (b : List Char) : Bool :=
  match b with
  | c0 :: c1 :: c2 :: _ =>
    (c0 == 'i' || c0 == 'I') && (c1 == 'n' || c1 == 'N') && (c2 == 'f' || c2 == 'F')
  | _ => false

/-- The sign-stripped body begins the case-insensitive keyword `nan` of the
C99 NaN subject sequences. -/
def nanStart (b : List Char) : Bool :=
  match b with
  | c0 :: c1 :: c2 :: _ =>
    (c0 == 'n' || c0 == 'N') && (c1 == 'a' || c1 == 'A') && (c2 == 'n' || c2 == 'N')
  | _ => false

/-- The token at `s`, after leading whitespace and the optional sign, begins
none of the C99 special floating forms — hexadecimal, infinity, NaN — that
`std::strtod` additionally accepts and the decimal `strtod` model leaves out.
On these inputs the model and the C library agree exactly; the special forms
are excluded from every consumption property about the floating-point
getters. -/
@[reducible]
def noSpecial (s : List Char) : Prop :=
  hexStart (splitSign (s.dropWhile isSpace)).2 = false ∧
    infStart (splitSign (s.dropWhile isSpace)).2 = false ∧
    nanStart (splitSign (s.dropWhile isSpace)).2 = false

end Mmio

namespace Mmio

/-- A concrete mapped file with three edge lines of different widths
(`1 1 999999`, `2 2 1`, `3 3 1`), no header, used to exhibit the approximate
nature of the interpolation search. -/
def mmNU : MatrixMarketFile :=
  { n_ := 3, m_ := 3, nnz_ := 3, base_ := true,
    data := ("1 1 999999\n2 2 1\n3 3 1\n").toList, i_ := 0, e_ := 23 }

/-- A concrete handle whose header declares two edges although the edge-data
region is empty (`i_ = e_ = 1`), as produced by opening a file that ends right
after its size line. -/
def mmBadr : MatrixMarketFile :=
  { n_ := 1, m_ := 1, nnz_ := 2, base_ := true, data := ("x").toList, i_ := 1, e_ := 1 }

/-- A concrete mapped file with a two-byte header and two edge lines of the
uniform width 4 (`1 1`, `2 2`). -/
def mmUW : MatrixMarketFile :=
  { n_ := 2, m_ := 2, nnz_ := 2, base_ := true,
    data := ("h\n1 1\n2 2\n").toList, i_ := 2, e_ := 10 }

/-- A concrete handle for the empty-file boundary case: header only, no edges. -/
def mmEmpty : MatrixMarketFile :=
  { n_ := 1, m_ := 1, nnz_ := 0, base_ := true, data := ("x\n").toList, i_ := 2, e_ := 2 }

/-- Records produced by dereferencing at the start of each listed line in turn,
each line advancing the cursor by its own length. -/
def linesRecords (Vs : List AttrTy) (data : List Char) : Int → List (List Char) → List EdgeRecord
  | _, [] => []
  | p, l :: ls => derefEdge Vs (data.drop p.toNat) :: linesRecords Vs data (p + l.length) ls

/-- No newline occurs in the offset interval `[lo, hi]` of the mapping. -/
def NoNL (data : List Char) (lo hi : Int) : Prop :=
  ∀ p : Int, lo ≤ p → p ≤ hi → byteAt data p ≠ '\n'

/-- Byte length of the mantissa part of the subject sequence `strtod` finds in
the sign-stripped body `b`: the digit run, extended by a point and the
following digit run when a point is present. -/
def mantLen (b : List Char) : Nat :=
  match b.dropWhile Char.isDigit with
  | c :: t =>
    if c = '.' then (b.takeWhile Char.isDigit).length + 1 + (t.takeWhile Char.isDigit).length
    else (b.takeWhile Char.isDigit).length
  | [] => (b.takeWhile Char.isDigit).length

/-- Byte length of the exponent part of the subject sequence `strtod` finds in
the remainder `r2` after the mantissa: zero unless an `e`/`E` is followed
(after an optional sign) by at least one digit. -/
def expLen (r2 : List Char) : Nat :=
  match r2 with
  | c :: t =>
    if c = 'e' ∨ c = 'E' then
      if (splitSign t).2.takeWhile Char.isDigit = [] then 0
      else 1 + (t.length - (splitSign t).2.length) +
        ((splitSign t).2.takeWhile Char.isDigit).length
    else 0
  | [] => 0

/-- Byte length of the whole subject sequence `strtod` finds in the
sign-stripped body `b`. -/
def bodyLen (b : List Char) : Nat :=
  mantLen b + expLen (fracPart (b.dropWhile Char.isDigit)).2

/-- C4: dereferencing a cursor at the line `"3 5 2.5\n"` with one requested
`double` attribute parses the two leading integer tokens as row and column,
subtracts one from each, then parses the attribute, yielding `(2, 4, 2.5)`. -/
theorem deref_line_roundtrip :
    derefEdge [AttrTy.f64] (("3 5 2.5\n").toList) =
      { row := 2, col := 4, attrs := [AttrVal.ofRat (5 / 2)] } := by
  have h : (5 : ℚ) / 2 = mkRat 5 2 := by norm_num [Rat.mkRat_eq_div]
  rw [h]; decide

/-- C8: `release` clears the base address, calling it again leaves the handle
state unchanged (release ∘ release = release) and performs no second `munmap`,
and the destructor invokes `release`. -/
theorem release_idempotent (mm : MatrixMarketFile) :
    mm.release.base_ = false ∧ mm.release.release = mm.release ∧
      mm.release.releaseUnmaps = false ∧ mm.destructor = mm.release :=
  ⟨rfl, rfl, rfl, rfl⟩

/-- Iterating from a cursor that already equals the end cursor yields nothing,
whatever the fuel. -/
theorem iterRecords_self (Vs : List AttrTy) (data : List Char) (fuel : Nat) (p : Int) :
    iterRecords Vs data fuel p p = [] := by
  cases fuel <;> simp [iterRecords]

/-- C7: for a handle of a valid file with `nnz_ = 0` (the edge-data region is
then empty, `i_ = e_`), `edge 0` returns `e_` and the full range is empty:
its begin and end cursors coincide and iteration yields no records. -/
theorem edges_empty_file (mm : MatrixMarketFile) (Vs : List AttrTy)
    (hn : mm.nnz_ = 0) (hie : mm.i_ = mm.e_) :
    mm.edge 0 = mm.e_ ∧ (edgesAll mm).begin_ = (edgesAll mm).end_ ∧
      ∀ fuel, iterRecords Vs mm.data fuel (edgesAll mm).begin_ (edgesAll mm).end_ = [] := by
  have h0 : mm.edge 0 = mm.i_ := by simp [MatrixMarketFile.edge]
  have hb : (edgesAll mm).begin_ = mm.edge 0 := rfl
  have he : (edgesAll mm).end_ = mm.edge mm.nnz_ := rfl
  have hee : mm.edge mm.nnz_ = mm.edge 0 := by rw [hn]
  refine ⟨by rw [h0, hie], by rw [hb, he, hee], fun fuel => ?_⟩
  rw [hb, he, hee]
  exact iterRecords_self ..

/-- Witness for C7 at the concrete empty handle `mmEmpty`. -/
theorem edges_empty_file_witness :
    mmEmpty.edge 0 = mmEmpty.e_ ∧ (edgesAll mmEmpty).begin_ = (edgesAll mmEmpty).end_ ∧
      ∀ fuel, iterRecords [] mmEmpty.data fuel (edgesAll mmEmpty).begin_ (edgesAll mmEmpty).end_ = [] :=
  edges_empty_file mmEmpty [] rfl rfl

/-- C5 counterexample: on the input `" 5"` the `int64` getter consumes the
leading whitespace together with the digit, while the longest prefix of the
input matching the optionally-signed-decimal-integer grammar is empty — the
consumption is not `"exactly the leading characters matching that type's
numeric grammar"`. -/
theorem get_consume_ce :
    (getI64 ((" 5").toList)).2 ≠ ((" 5").toList).drop (maxTokLen isIntTok ((" 5").toList)) := by
  decide

/-- C6 counterexample: the input `".5"` has no nonempty prefix in the integer
grammar of the requested type `int32`, yet the `int32` getter does not leave
the scan pointer unchanged — it consumes `".5"` (its end pointer comes from
`strtod`, due to the `if constexpr` fallthrough in the source). -/
theorem get_empty_match_ce :
    maxTokLen isIntTok ((".5").toList) = 0 ∧ (getI32 ((".5").toList)).2 ≠ (".5").toList := by
  decide

/-- C2 counterexample: on the non-uniform file `mmNU`, the interpolation search
sends `edge 1` back to offset `0`, so the sub-range `edges(mm, 1, 3)` starts at
record 0 and does not yield the records with indices in `[1, 3)` of the full
range. -/
theorem edges_subrange_ce :
    iterRecords [] mmNU.data 2 (edges mmNU 1 3).begin_ (edges mmNU 1 3).end_ ≠
      ((iterRecords [] mmNU.data 3 (edgesAll mmNU).begin_ (edgesAll mmNU).end_).drop 1).take 2 := by
  decide

/-- A well-formed line is nonempty. -/
theorem lineOk_ne_nil (l : List Char) (h : lineOk l = true) : l ≠ [] := by
  intro hnil
  rw [hnil] at h
  simp [lineOk] at h

/-- A well-formed line is its newline-free body followed by one newline. -/
theorem lineOk_decomp (l : List Char) (h : lineOk l = true) :
    l.dropLast ++ ['\n'] = l ∧ ∀ c ∈ l.dropLast, c ≠ '\n' := by
  rw [lineOk, Bool.and_eq_true] at h
  obtain ⟨hall, hlast⟩ := h
  rw [beq_iff_eq] at hlast
  refine ⟨List.dropLast_append_getLast? '\n' hlast, fun c hc => ?_⟩
  have := List.all_eq_true.1 hall c hc
  simpa using this

/-- `takeWhile` over a list made of satisfying elements, a failing element and
a tail returns exactly the satisfying prefix. -/
theorem takeWhile_middle {f : Char → Bool} (xs : List Char) (c : Char) (ys : List Char)
    (hall : ∀ x ∈ xs, f x = true) (hc : f c = false) :
    (xs ++ c :: ys).takeWhile f = xs := by
  induction xs with
  | nil => simp [List.takeWhile_cons, hc]
  | cons x xs ih =>
    have hx : f x = true := hall x (List.mem_cons_self x xs)
    simp only [List.cons_append, List.takeWhile_cons, hx, if_true]
    rw [ih (fun y hy => hall y (List.mem_cons_of_mem x hy))]

/-- Advancing the cursor from the start of a well-formed line moves it exactly
one past that line's newline, i.e. to the start of the next line. -/
theorem nextEdge_line (data : List Char) (p : Int) (l rest : List Char)
    (hp : 0 ≤ p) (hdrop : data.drop p.toNat = l ++ rest) (hok : lineOk l = true) :
    nextEdge data p = p + l.length := by
  obtain ⟨hdecomp, hbody⟩ := lineOk_decomp l hok
  have hd : data.drop p.toNat = l.dropLast ++ '\n' :: rest := by
    rw [hdrop, ← hdecomp]
    simp
  unfold nextEdge strchrNL
  rw [hd, takeWhile_middle _ _ _ (fun x hx => by simpa using hbody x hx) (by simp)]
  have hlen : l.length = l.dropLast.length + 1 := by
    conv_lhs => rw [← hdecomp]
    simp
  omega

/-- After the cursor advances past a line, the remaining suffix of the mapping
is the remaining lines. -/
theorem drop_nextEdge (data : List Char) (p : Int) (l rest : List Char)
    (hp : 0 ≤ p) (hdrop : data.drop p.toNat = l ++ rest) :
    data.drop (p + (l.length : Int)).toNat = rest := by
  have h1 : (p + (l.length : Int)).toNat = p.toNat + l.length := by omega
  rw [h1, ← List.drop_drop, hdrop, List.drop_left]

/-- The cursor position after `m` increments from the start of a well-formed
line region is the total width of the first `m` lines. -/
theorem iterPos_lines (data : List Char) :
    ∀ (m : Nat) (lines : List (List Char)) (rest : List Char) (p : Int), 0 ≤ p →
      data.drop p.toNat = lines.flatten ++ rest → (∀ l ∈ lines, lineOk l = true) →
      m ≤ lines.length →
      iterPos data m p = p + (((lines.take m).flatten.length : Nat) : Int) := by
  intro m
  induction m with
  | zero => intro lines rest p hp hdrop hok hm; simp [iterPos]
  | succ m ih =>
    intro lines rest p hp hdrop hok hm
    match lines with
    | [] => simp at hm
    | l :: ls =>
      have hokl : lineOk l = true := hok l (List.mem_cons_self l ls)
      have hdrop' : data.drop p.toNat = l ++ (ls.flatten ++ rest) := by
        rw [hdrop]; simp
      have hnext : nextEdge data p = p + l.length := nextEdge_line data p l _ hp hdrop' hokl
      have hdrop2 : data.drop (p + (l.length : Int)).toNat = ls.flatten ++ rest :=
        drop_nextEdge data p l _ hp hdrop'
      have hrec := ih ls rest (p + l.length) (by omega) hdrop2
        (fun x hx => hok x (List.mem_cons_of_mem l hx)) (by simpa using hm)
      show iterPos data m (nextEdge data p) = _
      rw [hnext, hrec]
      have : ((l :: ls).take (m + 1)).flatten.length = l.length + (ls.take m).flatten.length := by
        simp
      omega

/-- Iterating a well-formed line region from its start to its end, with any
fuel at least the number of lines, produces exactly the per-line records. -/
theorem iterRecords_lines (Vs : List AttrTy) (data : List Char) :
    ∀ (lines : List (List Char)) (rest : List Char) (p : Int) (c : Nat), 0 ≤ p →
      data.drop p.toNat = lines.flatten ++ rest → (∀ l ∈ lines, lineOk l = true) →
      iterRecords Vs data (lines.length + c) p (p + (lines.flatten.length : Int)) =
        linesRecords Vs data p lines := by
  intro lines
  induction lines with
  | nil =>
    intro rest p c hp hdrop hok
    simpa [linesRecords] using iterRecords_self Vs data (0 + c) p
  | cons l ls ih =>
    intro rest p c hp hdrop hok
    have hokl : lineOk l = true := hok l (List.mem_cons_self l ls)
    have hlpos : 1 ≤ l.length := by
      have := lineOk_ne_nil l hokl
      cases l with
      | nil => simp at this
      | cons a t => simp
    have hdrop' : data.drop p.toNat = l ++ (ls.flatten ++ rest) := by
      rw [hdrop]; simp
    have hnext : nextEdge data p = p + l.length := nextEdge_line data p l _ hp hdrop' hokl
    have hdrop2 : data.drop (p + (l.length : Int)).toNat = ls.flatten ++ rest :=
      drop_nextEdge data p l _ hp hdrop'
    have hfuel : (l :: ls).length + c = Nat.succ (ls.length + c) := by
      simp [Nat.succ_eq_add_one]; omega
    rw [hfuel]
    have hstop : p + (((l :: ls).flatten.length : Nat) : Int) =
        (p + l.length) + (ls.flatten.length : Int) := by
      simp; omega
    rw [hstop]
    have hne : p ≠ p + (l.length : Int) + (ls.flatten.length : Int) := by omega
    show (if p = p + (l.length : Int) + (ls.flatten.length : Int) then []
      else derefEdge Vs (data.drop p.toNat) ::
        iterRecords Vs data (ls.length + c) (nextEdge data p)
          (p + (l.length : Int) + (ls.flatten.length : Int))) = _
    rw [if_neg hne, hnext]
    rw [ih (rest) (p + l.length) c (by omega) hdrop2
      (fun x hx => hok x (List.mem_cons_of_mem l hx))]
    rfl

/-- The number of per-line records is the number of lines. -/
theorem linesRecords_length (Vs : List AttrTy) (data : List Char) :
    ∀ (lines : List (List Char)) (p : Int), (linesRecords Vs data p lines).length = lines.length := by
  intro lines
  induction lines with
  | nil => intro p; rfl
  | cons l ls ih => intro p; simp [linesRecords, ih]

/-- Among well-formed lines, the flattened width of a proper prefix is strictly
smaller than the total width. -/
theorem flatten_take_lt (lines : List (List Char)) (hok : ∀ l ∈ lines, lineOk l = true)
    (m : Nat) (hm : m < lines.length) :
    (lines.take m).flatten.length < lines.flatten.length := by
  have hsplit : lines = lines.take m ++ lines.drop m := (List.take_append_drop m lines).symm
  have hdropm : lines.drop m = lines[m] :: lines.drop (m + 1) := List.drop_eq_getElem_cons hm
  have hmem : lines[m] ∈ lines := List.getElem_mem hm
  have hnil := lineOk_ne_nil _ (hok _ hmem)
  have hpos : 1 ≤ (lines[m]).length := by
    cases h : lines[m] with
    | nil => exact absurd h hnil
    | cons a t => simp
  have h1 : lines.flatten.length = (lines.take m).flatten.length + (lines.drop m).flatten.length := by
    conv_lhs => rw [hsplit]
    rw [List.flatten_append, List.length_append]
  have h2 : (lines.drop m).flatten.length = (lines[m]).length + (lines.drop (m + 1)).flatten.length := by
    rw [hdropm, List.flatten_cons, List.length_append]
  omega

/-- When the scan starts below `i`, the loop body never runs. -/
theorem scanBack_of_lt (data : List Char) (i approx : Int) (h : approx < i) :
    scanBack data i approx = approx + 1 := by
  unfold scanBack
  rw [show (approx + 1 - i).toNat = 0 by omega]
  rfl

/-- Characterization of the backward scan on its fueled core: starting from
`approx ≥ i` it returns either `i` with no newline anywhere in `[i, approx]`,
or one past the greatest newline offset in `[i, approx]`. -/
theorem scanBackAux_spec (data : List Char) :
    ∀ (fuel : Nat) (i approx : Int), fuel = (approx + 1 - i).toNat → i ≤ approx →
      (scanBackAux data fuel approx = i ∧ NoNL data i approx) ∨
      (i ≤ scanBackAux data fuel approx - 1 ∧ scanBackAux data fuel approx - 1 ≤ approx ∧
        byteAt data (scanBackAux data fuel approx - 1) = '\n' ∧
        NoNL data (scanBackAux data fuel approx) approx) := by
  intro fuel
  induction fuel with
  | zero => intro i approx hf h; omega
  | succ k ih =>
    intro i approx hf h
    by_cases hb : byteAt data approx = '\n'
    · right
      simp only [scanBackAux, hb, ne_eq, not_true_eq_false, if_false]
      refine ⟨by omega, by omega, by simpa using hb, ?_⟩
      intro p hp hp'
      omega
    · simp only [scanBackAux, ne_eq, hb, not_false_eq_true, if_true]
      by_cases h' : i ≤ approx - 1
      · rcases ih i (approx - 1) (by omega) h' with ⟨he, hno⟩ | ⟨h1, h2, h3, hno⟩
        · left
          refine ⟨he, fun p hp hp' => ?_⟩
          rcases lt_or_eq_of_le hp' with hlt | rfl
          · exact hno p hp (by omega)
          · exact hb
        · right
          refine ⟨h1, by omega, h3, fun p hp hp' => ?_⟩
          rcases lt_or_eq_of_le hp' with hlt | rfl
          · exact hno p hp (by omega)
          · exact hb
      · have hk : k = 0 := by omega
        have ha : approx = i := by omega
        subst hk
        left
        constructor
        · simp [scanBackAux]; omega
        · intro p hp hp'
          have : p = approx := by omega
          rwa [this]

/-- Characterization of `scanBack` for `i ≤ approx`. -/
theorem scanBack_spec (data : List Char) (i approx : Int) (h : i ≤ approx) :
    (scanBack data i approx = i ∧ NoNL data i approx) ∨
    (i ≤ scanBack data i approx - 1 ∧ scanBack data i approx - 1 ≤ approx ∧
      byteAt data (scanBack data i approx - 1) = '\n' ∧
      NoNL data (scanBack data i approx) approx) :=
  scanBackAux_spec data _ i approx rfl h

/-- The scan result never drops below `i`. -/
theorem scanBack_ge (data : List Char) (i approx : Int) (h : i ≤ approx) :
    i ≤ scanBack data i approx := by
  rcases scanBack_spec data i approx h with ⟨he, _⟩ | ⟨h1, _, _, _⟩ <;> omega

/-- The scan result never exceeds the starting probe plus one. -/
theorem scanBack_le (data : List Char) (i approx : Int) (h : i ≤ approx) :
    scanBack data i approx ≤ approx + 1 := by
  rcases scanBack_spec data i approx h with ⟨he, _⟩ | ⟨_, h2, _, _⟩ <;> omega

/-- Monotonicity of the scan in the starting probe. -/
theorem scanBack_mono (data : List Char) (i a b : Int) (ha : i ≤ a) (hab : a ≤ b) :
    scanBack data i a ≤ scanBack data i b := by
  have hb : i ≤ b := le_trans ha hab
  rcases scanBack_spec data i a ha with ⟨hea, _⟩ | ⟨ha1, ha2, ha3, _⟩
  · rw [hea]
    exact scanBack_ge data i b hb
  · rcases scanBack_spec data i b hb with ⟨_, hnob⟩ | ⟨_, _, _, hnob⟩
    · exact absurd ha3 (hnob _ ha1 (by omega))
    · by_contra hlt
      exact hnob (scanBack data i a - 1) (by omega) (by omega) ha3

/-- Reads of the fueled scan core stay within `[i, approx]` when the fuel is
the loop bound. -/
theorem scanBackReadsAux_bounds (data : List Char) :
    ∀ (fuel : Nat) (i approx : Int), fuel = (approx + 1 - i).toNat →
      ∀ p ∈ scanBackReadsAux data fuel approx, i ≤ p ∧ p ≤ approx := by
  intro fuel
  induction fuel with
  | zero => intro i approx hf p hp; simp [scanBackReadsAux] at hp
  | succ k ih =>
    intro i approx hf p hp
    by_cases hb : byteAt data approx = '\n'
    · simp only [scanBackReadsAux, hb, ne_eq, not_true_eq_false, if_false,
        List.mem_singleton] at hp
      omega
    · simp only [scanBackReadsAux, ne_eq, hb, not_false_eq_true, if_true,
        List.mem_cons] at hp
      rcases hp with rfl | hp
      · omega
      · have := ih i (approx - 1) (by omega) p hp
        omega

/-- Reads of `scanBack` stay within `[i, approx]`. -/
theorem scanBackReads_bounds (data : List Char) (i approx : Int) :
    ∀ p ∈ scanBackReads data i approx, i ≤ p ∧ p ≤ approx :=
  scanBackReadsAux_bounds data _ i approx rfl

/-- A read at or past the mapped length sees the zero fill, not a newline. -/
theorem byteAt_past_end (data : List Char) (p : Int) (h : (data.length : Int) ≤ p) :
    byteAt data p ≠ '\n' := by
  unfold byteAt
  rcases le_or_lt 0 p with h0 | h0
  · rw [if_pos h0, List.getD_eq_default _ _ (by omega)]
    decide
  · rw [if_neg (by omega)]
    decide

/-- The interpolation probe offset is nonnegative. -/
theorem tdiv_probe_nonneg (n b nnz : Int) (hn : 0 < n) (hb : 0 ≤ b) (hz : 0 < nnz) :
    0 ≤ Int.tdiv (n * b) nnz :=
  Int.tdiv_nonneg (mul_nonneg (le_of_lt hn) hb) (le_of_lt hz)

/-- For an interior index the interpolation probe stays strictly below `b`. -/
theorem tdiv_probe_lt (n b nnz : Int) (hn : 0 < n) (hnn : n < nnz) (hb : 1 ≤ b) :
    Int.tdiv (n * b) nnz < b := by
  have hz : 0 < nnz := lt_trans hn hnn
  rw [Int.tdiv_eq_ediv (mul_nonneg (le_of_lt hn) (by omega)) (le_of_lt hz)]
  rw [Int.ediv_lt_iff_lt_mul hz]
  calc n * b = b * n := mul_comm n b
  _ < b * nnz := by
      exact mul_lt_mul_of_pos_left hnn (by omega)

/-- The interpolation probe is monotone in the edge index. -/
theorem tdiv_probe_mono (n m b nnz : Int) (hn0 : 0 ≤ n) (hnm : n ≤ m) (hb : 0 ≤ b) (hz : 0 < nnz) :
    Int.tdiv (n * b) nnz ≤ Int.tdiv (m * b) nnz := by
  rw [Int.tdiv_eq_ediv (mul_nonneg hn0 hb) (le_of_lt hz),
    Int.tdiv_eq_ediv (mul_nonneg (le_trans hn0 hnm) hb) (le_of_lt hz)]
  exact Int.ediv_le_ediv hz (mul_le_mul_of_nonneg_right hnm hb)

/-- In its interior branch the locator reduces to the backward scan from the
interpolation probe. -/
theorem edge_eq_scanBack (mm : MatrixMarketFile) (n : Int) (h0 : n ≠ 0) (hN : n ≠ mm.nnz_) :
    mm.edge n = scanBack mm.data mm.i_ (mm.i_ + Int.tdiv (n * (mm.e_ - mm.i_)) mm.nnz_) := by
  simp [MatrixMarketFile.edge, h0, hN]

/-- Every locator result is at least `i_`. -/
theorem edge_ge_start (mm : MatrixMarketFile) (n : Int)
    (hie : mm.i_ ≤ mm.e_) (hn0 : 0 ≤ n) (hnn : n ≤ mm.nnz_) :
    mm.i_ ≤ mm.edge n := by
  by_cases h0 : n = 0
  · simp [MatrixMarketFile.edge, h0]
  by_cases hN : n = mm.nnz_
  · have : mm.edge n = mm.e_ := by simp [MatrixMarketFile.edge, h0, hN]; omega
    rw [this]; exact hie
  · have hnpos : 0 < n := lt_of_le_of_ne hn0 (Ne.symm h0)
    have hnlt : n < mm.nnz_ := lt_of_le_of_ne hnn hN
    have hzpos : 0 < mm.nnz_ := lt_trans hnpos hnlt
    rw [edge_eq_scanBack mm n h0 hN]
    apply scanBack_ge
    have := tdiv_probe_nonneg n (mm.e_ - mm.i_) mm.nnz_ hnpos (by omega) hzpos
    omega

/-- Every locator result is at most `e_` when `e_` is the mapped length. -/
theorem edge_le_total (mm : MatrixMarketFile) (n : Int)
    (hi0 : 0 ≤ mm.i_) (hie : mm.i_ ≤ mm.e_) (hlen : mm.e_ = (mm.data.length : Int))
    (hn0 : 0 ≤ n) (hnn : n ≤ mm.nnz_) :
    mm.edge n ≤ mm.e_ := by
  by_cases h0 : n = 0
  · have : mm.edge n = mm.i_ := by simp [MatrixMarketFile.edge, h0]
    omega
  by_cases hN : n = mm.nnz_
  · have : mm.edge n = mm.e_ := by simp [MatrixMarketFile.edge, h0, hN]; omega
    omega
  · have hnpos : 0 < n := lt_of_le_of_ne hn0 (Ne.symm h0)
    have hnlt : n < mm.nnz_ := lt_of_le_of_ne hnn hN
    have hzpos : 0 < mm.nnz_ := lt_trans hnpos hnlt
    rw [edge_eq_scanBack mm n h0 hN]
    set b := mm.e_ - mm.i_ with hb
    have hb0 : 0 ≤ b := by omega
    have hd0 : 0 ≤ Int.tdiv (n * b) mm.nnz_ := tdiv_probe_nonneg _ _ _ hnpos hb0 hzpos
    rcases eq_or_lt_of_le hb0 with hbz | hbpos
    · have ht0 : Int.tdiv (n * b) mm.nnz_ = 0 := by rw [← hbz]; simp
      rcases scanBack_spec mm.data mm.i_ (mm.i_ + Int.tdiv (n * b) mm.nnz_) (by omega) with
        ⟨he, _⟩ | ⟨h1, h2, h3, _⟩
      · omega
      · exact absurd h3 (byteAt_past_end mm.data _ (by omega))
    · have hub := tdiv_probe_lt n b mm.nnz_ hnpos hnlt (by omega)
      have hle := scanBack_le mm.data mm.i_ (mm.i_ + Int.tdiv (n * b) mm.nnz_) (by omega)
      omega

/-- C1: for a handle with a valid mapping (`0 ≤ i_ ≤ e_`, `e_` the mapped
length) and any edge index `0 ≤ n ≤ nnz_`, the locator returns the edge-data
start `i_`, the total length `e_`, or an offset positioned immediately after a
newline byte of the mapped data. -/
theorem edge_boundary_kinds (mm : MatrixMarketFile) (n : Int)
    (hi0 : 0 ≤ mm.i_) (hie : mm.i_ ≤ mm.e_) (hlen : mm.e_ = (mm.data.length : Int))
    (hn0 : 0 ≤ n) (hnn : n ≤ mm.nnz_) :
    mm.edge n = mm.i_ ∨ mm.edge n = mm.e_ ∨
      (mm.i_ ≤ mm.edge n - 1 ∧ mm.edge n - 1 < mm.e_ ∧
        byteAt mm.data (mm.edge n - 1) = '\n') := by
  by_cases h0 : n = 0
  · left; simp [MatrixMarketFile.edge, h0]
  by_cases hN : n = mm.nnz_
  · right; left; simp [MatrixMarketFile.edge, h0, hN]; omega
  · have hnpos : 0 < n := lt_of_le_of_ne hn0 (Ne.symm h0)
    have hnlt : n < mm.nnz_ := lt_of_le_of_ne hnn hN
    have hzpos : 0 < mm.nnz_ := lt_trans hnpos hnlt
    rw [edge_eq_scanBack mm n h0 hN]
    set b := mm.e_ - mm.i_ with hb
    have hb0 : 0 ≤ b := by omega
    have hd0 : 0 ≤ Int.tdiv (n * b) mm.nnz_ := tdiv_probe_nonneg _ _ _ hnpos hb0 hzpos
    rcases scanBack_spec mm.data mm.i_ (mm.i_ + Int.tdiv (n * b) mm.nnz_) (by omega) with
      ⟨he, _⟩ | ⟨h1, h2, h3, _⟩
    · left; exact he
    · rcases eq_or_lt_of_le hb0 with hbz | hbpos
      · exfalso
        have ht0 : Int.tdiv (n * b) mm.nnz_ = 0 := by rw [← hbz]; simp
        exact byteAt_past_end mm.data _ (by omega) h3
      · right; right
        have hub := tdiv_probe_lt n b mm.nnz_ hnpos hnlt (by omega)
        exact ⟨h1, by omega, h3⟩

/-- Witness for C1: the interior index `1` on the concrete handle `mmNU` hits
the newline disjunct. -/
theorem edge_boundary_kinds_witness :
    mmNU.edge 1 = mmNU.i_ ∨ mmNU.edge 1 = mmNU.e_ ∨
      (mmNU.i_ ≤ mmNU.edge 1 - 1 ∧ mmNU.edge 1 - 1 < mmNU.e_ ∧
        byteAt mmNU.data (mmNU.edge 1 - 1) = '\n') :=
  edge_boundary_kinds mmNU 1 (by decide) (by decide) (by decide) (by decide) (by decide)

/-- C9 (amended with the precondition `i_ < e_`): the backward scan terminates
(it is a total function of the model), every byte it reads lies in the mapped
interval `[i_, e_)`, and the returned offset lies in `[i_, e_]`. -/
theorem edge_reads_bounds (mm : MatrixMarketFile) (n : Int)
    (hn0 : 0 ≤ n) (hnn : n ≤ mm.nnz_) (hz : 0 < mm.nnz_)
    (hi0 : 0 ≤ mm.i_) (hie : mm.i_ < mm.e_) (hlen : mm.e_ = (mm.data.length : Int)) :
    (∀ p ∈ mm.edgeReads n, mm.i_ ≤ p ∧ p < mm.e_) ∧
      mm.i_ ≤ mm.edge n ∧ mm.edge n ≤ mm.e_ := by
  refine ⟨?_, edge_ge_start mm n (le_of_lt hie) hn0 hnn,
    edge_le_total mm n hi0 (le_of_lt hie) hlen hn0 hnn⟩
  intro p hp
  by_cases h0 : n = 0
  · simp [MatrixMarketFile.edgeReads, h0] at hp
  by_cases hN : n = mm.nnz_
  · simp [MatrixMarketFile.edgeReads, h0, hN] at hp
  · have hnpos : 0 < n := lt_of_le_of_ne hn0 (Ne.symm h0)
    have hnlt : n < mm.nnz_ := lt_of_le_of_ne hnn hN
    have hER : mm.edgeReads n =
        scanBackReads mm.data mm.i_ (mm.i_ + Int.tdiv (n * (mm.e_ - mm.i_)) mm.nnz_) := by
      simp [MatrixMarketFile.edgeReads, h0, hN]
    rw [hER] at hp
    have hbounds := scanBackReads_bounds mm.data mm.i_ _ p hp
    have hub := tdiv_probe_lt n (mm.e_ - mm.i_) mm.nnz_ hnpos hnlt (by omega)
    omega

/-- Witness for the amended C9 at the concrete handle `mmNU` and index `1`. -/
theorem edge_reads_bounds_witness :
    (∀ p ∈ mmNU.edgeReads 1, mmNU.i_ ≤ p ∧ p < mmNU.e_) ∧
      mmNU.i_ ≤ mmNU.edge 1 ∧ mmNU.edge 1 ≤ mmNU.e_ :=
  edge_reads_bounds mmNU 1 (by decide) (by decide) (by decide) (by decide) (by decide) (by decide)

/-- C10: the locator is monotone in the edge index, and consequently the range
`edges(mm, n, m)` with `n ≤ m` has its begin cursor at or before its end
cursor. -/
theorem edge_monotone (mm : MatrixMarketFile) (n m : Int)
    (hi0 : 0 ≤ mm.i_) (hie : mm.i_ ≤ mm.e_) (hlen : mm.e_ = (mm.data.length : Int))
    (hn0 : 0 ≤ n) (hnm : n ≤ m) (hm : m ≤ mm.nnz_) :
    mm.edge n ≤ mm.edge m ∧ (edges mm n m).begin_ ≤ (edges mm n m).end_ := by
  have main : mm.edge n ≤ mm.edge m := by
    by_cases hnmeq : n = m
    · rw [hnmeq]
    by_cases h0 : n = 0
    · have : mm.edge n = mm.i_ := by simp [MatrixMarketFile.edge, h0]
      rw [this]
      exact edge_ge_start mm m hie (by omega) hm
    by_cases hMN : m = mm.nnz_
    · have : mm.edge m = mm.e_ := by
        by_cases hm0 : m = 0
        · exfalso; omega
        · simp [MatrixMarketFile.edge, hm0, hMN]; omega
      rw [this]
      exact edge_le_total mm n hi0 hie hlen hn0 (by omega)
    · have hnpos : 0 < n := lt_of_le_of_ne hn0 (Ne.symm h0)
      have hmlt : m < mm.nnz_ := lt_of_le_of_ne hm hMN
      have hzpos : 0 < mm.nnz_ := by omega
      have hN : n ≠ mm.nnz_ := by omega
      have hM0 : m ≠ 0 := by omega
      rw [edge_eq_scanBack mm n h0 hN, edge_eq_scanBack mm m hM0 hMN]
      have hmono := tdiv_probe_mono n m (mm.e_ - mm.i_) mm.nnz_ hn0 hnm (by omega) hzpos
      have hd0 : 0 ≤ Int.tdiv (n * (mm.e_ - mm.i_)) mm.nnz_ :=
        tdiv_probe_nonneg _ _ _ hnpos (by omega) hzpos
      exact scanBack_mono mm.data mm.i_ _ _ (by omega) (by omega)
  exact ⟨main, main⟩

/-- Witness for C10 at the concrete handle `mmNU` with indices `1 ≤ 2`. -/
theorem edge_monotone_witness :
    mmNU.edge 1 ≤ mmNU.edge 2 ∧ (edges mmNU 1 2).begin_ ≤ (edges mmNU 1 2).end_ :=
  edge_monotone mmNU 1 2 (by decide) (by decide) (by decide) (by decide) (by decide) (by decide)

/-- C3: for a file whose edge-data region is exactly `nnz_` newline-terminated
lines, `edge 0` is the edge-data start, `edge nnz_` is the total length, and
iterating the full range yields exactly `nnz_` records before the cursor
reaches the end cursor: whatever spare fuel is given, the record count is the
line count, and at every step before the last the cursor differs from the end
cursor. -/
theorem edges_full_yields_all (mm : MatrixMarketFile) (Vs : List AttrTy)
    (hdr : List Char) (lines : List (List Char))
    (hdata : mm.data = hdr ++ lines.flatten)
    (hi : mm.i_ = (hdr.length : Int))
    (he : mm.e_ = (mm.data.length : Int))
    (hn : mm.nnz_ = (lines.length : Int))
    (hok : ∀ l ∈ lines, lineOk l = true) :
    mm.edge 0 = mm.i_ ∧ mm.edge mm.nnz_ = mm.e_ ∧
      (∀ c, (iterRecords Vs mm.data (lines.length + c) (edgesAll mm).begin_
        (edgesAll mm).end_).length = lines.length) ∧
      ∀ m : Nat, m < lines.length →
        iterPos mm.data m (edgesAll mm).begin_ ≠ (edgesAll mm).end_ := by
  have h0 : mm.edge 0 = mm.i_ := by simp [MatrixMarketFile.edge]
  have hN : mm.edge mm.nnz_ = mm.e_ := by
    by_cases hz : mm.nnz_ = 0
    · have hlen0 : lines.length = 0 := by omega
      have hnil : lines = [] := List.length_eq_zero.mp hlen0
      rw [hz, h0, hi, he, hdata, hnil]
      simp
    · unfold MatrixMarketFile.edge
      rw [if_neg hz, if_pos rfl]
  have hbegin : (edgesAll mm).begin_ = mm.i_ := h0
  have hend : (edgesAll mm).end_ = mm.i_ + (lines.flatten.length : Int) := by
    show mm.edge mm.nnz_ = _
    rw [hN, he, hdata, hi]
    push_cast
    simp
  have hp0 : 0 ≤ mm.i_ := by omega
  have hdrop : mm.data.drop mm.i_.toNat = lines.flatten ++ [] := by
    rw [hdata, hi, show ((hdr.length : Int)).toNat = hdr.length by omega, List.drop_left]
    simp
  refine ⟨h0, hN, fun c => ?_, fun m hm => ?_⟩
  · rw [hbegin, hend,
      iterRecords_lines Vs mm.data lines [] mm.i_ c hp0 hdrop hok, linesRecords_length]
  · rw [hbegin, hend, iterPos_lines mm.data m lines [] mm.i_ hp0 hdrop hok (le_of_lt hm)]
    have := flatten_take_lt lines hok m hm
    omega

/-- Witness for C3 at the concrete uniform handle `mmUW`. -/
theorem edges_full_yields_all_witness :
    mmUW.edge 0 = mmUW.i_ ∧ mmUW.edge mmUW.nnz_ = mmUW.e_ ∧
      (∀ c, (iterRecords [] mmUW.data (2 + c) (edgesAll mmUW).begin_
        (edgesAll mmUW).end_).length = 2) ∧
      ∀ m : Nat, m < 2 → iterPos mmUW.data m (edgesAll mmUW).begin_ ≠ (edgesAll mmUW).end_ :=
  edges_full_yields_all mmUW [] (("h\n").toList) [("1 1\n").toList, ("2 2\n").toList]
    (by decide) (by decide) (by decide) (by decide) (by decide)

/-- Total width of uniformly wide lines. -/
theorem flatten_length_uniform (lines : List (List Char)) (w : Nat)
    (hlW : ∀ l ∈ lines, l.length = w) : lines.flatten.length = lines.length * w := by
  induction lines with
  | nil => simp
  | cons l ls ih =>
    have hl : l.length = w := hlW l (List.mem_cons_self l ls)
    have hih := ih (fun x hx => hlW x (List.mem_cons_of_mem l hx))
    simp only [List.flatten_cons, List.length_append, List.length_cons, hih, hl]
    ring

/-- Dropping `a` uniform lines from the flattening drops `a * w` characters. -/
theorem flatten_drop_uniform (lines : List (List Char)) (w : Nat)
    (hlW : ∀ l ∈ lines, l.length = w) (a : Nat) :
    lines.flatten.drop (a * w) = (lines.drop a).flatten := by
  induction a generalizing lines with
  | zero => simp
  | succ a ih =>
    match lines with
    | [] => simp
    | l :: ls =>
      have hl : l.length = w := hlW l (List.mem_cons_self l ls)
      have h1 : (a + 1) * w = l.length + a * w := by rw [hl]; ring
      rw [List.flatten_cons, h1, ← List.drop_drop, List.drop_left,
        ih ls (fun x hx => hlW x (List.mem_cons_of_mem l hx))]
      simp

/-- Indexing the flattening of uniformly wide lines: character `off` of line
`n` lives at flat position `n * w + off`. -/
theorem flatten_getD_uniform (lines : List (List Char)) (w : Nat)
    (hlW : ∀ l ∈ lines, l.length = w) (d : Char) :
    ∀ (n off : Nat), n < lines.length → off < w →
      lines.flatten.getD (n * w + off) d = (lines.getD n []).getD off d := by
  induction lines with
  | nil => intro n off hn hoff; simp at hn
  | cons l ls ih =>
    intro n off hn hoff
    have hl : l.length = w := hlW l (List.mem_cons_self l ls)
    match n with
    | 0 =>
      rw [List.flatten_cons]
      simp only [Nat.zero_mul, Nat.zero_add]
      rw [List.getD_append _ _ _ _ (by omega)]
      simp
    | Nat.succ n =>
      rw [List.flatten_cons]
      have hidx : (n + 1) * w + off = l.length + (n * w + off) := by rw [hl]; ring
      rw [hidx, List.getD_append_right _ _ _ _ (by omega)]
      have hsub : l.length + (n * w + off) - l.length = n * w + off := by omega
      rw [hsub, ih (fun x hx => hlW x (List.mem_cons_of_mem l hx)) n off (by simpa using hn) hoff]
      simp

/-- Reading inside the appended region of the mapping. -/
theorem byteAt_append (hdr rest : List Char) (q : Nat) (hq : q < rest.length) :
    byteAt (hdr ++ rest) ((hdr.length : Int) + (q : Int)) = rest.getD q '\x00' := by
  unfold byteAt
  rw [if_pos (by omega)]
  have h1 : ((hdr.length : Int) + (q : Int)).toNat = hdr.length + q := by omega
  rw [h1, List.getD_append_right _ _ _ _ (Nat.le_add_right _ _)]
  rw [Nat.add_sub_cancel_left]

/-- In a uniform region the first character of each line is not a newline and
its last character is the newline. -/
theorem uniform_line_char (lines : List (List Char)) (w : Nat)
    (hok : ∀ l ∈ lines, lineOk l = true) (hlW : ∀ l ∈ lines, l.length = w) (hw : 2 ≤ w)
    (n : Nat) (hn : n < lines.length) :
    lines.flatten.getD (n * w) '\x00' ≠ '\n' ∧
      lines.flatten.getD (n * w + (w - 1)) '\x00' = '\n' := by
  have hline := flatten_getD_uniform lines w hlW '\x00'
  have hmem : lines[n] ∈ lines := List.getElem_mem hn
  have hokn := hok _ hmem
  have hlen : (lines[n]).length = w := hlW _ hmem
  obtain ⟨hdecomp, hbody⟩ := lineOk_decomp _ hokn
  have hblen : (lines[n]).dropLast.length = w - 1 := by
    rw [List.length_dropLast, hlen]
  have hgetDn : lines.getD n [] = lines[n] := List.getD_eq_getElem lines [] hn
  constructor
  · have h1 := hline n 0 hn (by omega)
    rw [Nat.add_zero] at h1
    rw [h1, hgetDn]
    conv_lhs => rw [← hdecomp]
    rw [List.getD_append _ _ _ _ (by omega)]
    have h0lt : 0 < (lines[n]).dropLast.length := by omega
    rw [List.getD_eq_getElem _ _ h0lt]
    exact hbody _ (List.getElem_mem h0lt)
  · have h1 := hline n (w - 1) hn (by omega)
    rw [h1, hgetDn]
    conv_lhs => rw [← hdecomp]
    rw [List.getD_append_right _ _ _ _ (by omega), hblen]
    simp

/-- Under uniform line width `w ≥ 2` the locator is exact:
`edge n = i_ + n * w` for every `n ≤ lines.length`. -/
theorem edge_uniform (mm : MatrixMarketFile) (hdr : List Char) (lines : List (List Char)) (w : Nat)
    (hdata : mm.data = hdr ++ lines.flatten) (hi : mm.i_ = (hdr.length : Int))
    (he : mm.e_ = (mm.data.length : Int)) (hn : mm.nnz_ = (lines.length : Int))
    (hok : ∀ l ∈ lines, lineOk l = true) (hw : 2 ≤ w) (hlW : ∀ l ∈ lines, l.length = w)
    (n : Nat) (hnle : n ≤ lines.length) :
    mm.edge (n : Int) = mm.i_ + ((n * w : Nat) : Int) := by
  have hflat : lines.flatten.length = lines.length * w := flatten_length_uniform lines w hlW
  have hdl : mm.data.length = hdr.length + lines.length * w := by
    rw [hdata]; simp [hflat]
  by_cases h0 : (n : Int) = 0
  · have hn0 : n = 0 := by omega
    subst hn0
    simp [MatrixMarketFile.edge]
  by_cases hN : (n : Int) = mm.nnz_
  · have hnl : n = lines.length := by omega
    have hedge : mm.edge (n : Int) = mm.e_ := by
      unfold MatrixMarketFile.edge
      rw [if_neg h0, if_pos hN]
    rw [hedge, he, hdl, hi, hnl]
    push_cast
    ring
  · have hnpos : 0 < n := by omega
    have hnlt : n < lines.length := by omega
    have hzpos : (0 : Int) < mm.nnz_ := by omega
    have hwle : w ≤ n * w := Nat.le_mul_of_pos_left w hnpos
    have hnwle : n * w ≤ lines.length * w := Nat.mul_le_mul_right w hnle
    have hq1 : n * w - 1 = (n - 1) * w + (w - 1) := by
      have h2 : (n - 1) * w + w = n * w := by
        have h3 : n - 1 + 1 = n := by omega
        calc (n - 1) * w + w = (n - 1 + 1) * w := by rw [Nat.succ_mul]
        _ = n * w := by rw [h3]
      omega
    have hbytes : mm.e_ - mm.i_ = ((lines.length * w : Nat) : Int) := by
      rw [he, hdl, hi]; push_cast; ring
    have hprobe : Int.tdiv ((n : Int) * (mm.e_ - mm.i_)) mm.nnz_ = ((n * w : Nat) : Int) := by
      rw [hbytes, hn]
      push_cast
      rw [show (n : Int) * ((lines.length : Int) * (w : Int)) =
        (lines.length : Int) * ((n : Int) * (w : Int)) by ring]
      exact Int.mul_tdiv_cancel_left _ (by omega)
    have hchars := uniform_line_char lines w hok hlW hw
    have hnwlt : n * w < lines.length * w := by
      have h2 : (n + 1) * w ≤ lines.length * w := Nat.mul_le_mul_right w (by omega)
      have h3 : (n + 1) * w = n * w + w := by rw [Nat.succ_mul]
      omega
    have hb2 : byteAt mm.data (mm.i_ + ((n * w : Nat) : Int)) ≠ '\n' := by
      rw [hdata, hi, byteAt_append hdr _ (n * w) (by rw [hflat]; omega)]
      exact (hchars n hnlt).1
    have hb1 : byteAt mm.data (mm.i_ + ((n * w : Nat) : Int) - 1) = '\n' := by
      have hcast : mm.i_ + ((n * w : Nat) : Int) - 1 =
          (hdr.length : Int) + (((n - 1) * w + (w - 1) : Nat) : Int) := by
        rw [hi]; omega
      rw [hcast, hdata, byteAt_append hdr _ _ (by rw [hflat]; omega)]
      exact (hchars (n - 1) (by omega)).2
    rw [edge_eq_scanBack mm (n : Int) h0 hN, hprobe]
    have hiA : mm.i_ ≤ mm.i_ + ((n * w : Nat) : Int) := by omega
    rcases scanBack_spec mm.data mm.i_ (mm.i_ + ((n * w : Nat) : Int)) hiA with
      ⟨he', hno⟩ | ⟨h1, h2, h3, hno⟩
    · exact absurd hb1 (hno (mm.i_ + ((n * w : Nat) : Int) - 1) (by omega) (by omega))
    · by_contra hne
      rcases eq_or_lt_of_le h2 with heq | hlt
      · rw [heq] at h3
        exact hb2 h3
      · exact hno (mm.i_ + ((n * w : Nat) : Int) - 1) (by omega) (by omega) hb1

/-- Iterating a uniform region between the line boundaries `a ≤ b` produces the
per-line records of the lines `[a, b)`. -/
theorem iterRecords_uniform_seg (mm : MatrixMarketFile) (Vs : List AttrTy)
    (hdr : List Char) (lines : List (List Char)) (w : Nat)
    (hdata : mm.data = hdr ++ lines.flatten) (hi : mm.i_ = (hdr.length : Int))
    (hok : ∀ l ∈ lines, lineOk l = true) (hlW : ∀ l ∈ lines, l.length = w)
    (a b : Nat) (hab : a ≤ b) (hb : b ≤ lines.length) :
    iterRecords Vs mm.data (b - a) (mm.i_ + ((a * w : Nat) : Int))
        (mm.i_ + ((b * w : Nat) : Int)) =
      linesRecords Vs mm.data (mm.i_ + ((a * w : Nat) : Int)) ((lines.drop a).take (b - a)) := by
  set L := (lines.drop a).take (b - a) with hL
  have hLsub : ∀ l ∈ L, l ∈ lines := fun l hl =>
    List.mem_of_mem_drop (List.mem_of_mem_take hl)
  have hLok : ∀ l ∈ L, lineOk l = true := fun l hl => hok l (hLsub l hl)
  have hLW : ∀ l ∈ L, l.length = w := fun l hl => hlW l (hLsub l hl)
  have hLlen : L.length = b - a := by
    rw [hL, List.length_take, List.length_drop]
    omega
  have hLflat : L.flatten.length = (b - a) * w := by
    rw [flatten_length_uniform L w hLW, hLlen]
  have hdb : (lines.drop a).drop (b - a) = lines.drop b := by
    rw [List.drop_drop]
    congr 1
    omega
  have hsplit : (lines.drop a).flatten = L.flatten ++ (lines.drop b).flatten := by
    conv_lhs => rw [← List.take_append_drop (b - a) (lines.drop a)]
    rw [List.flatten_append, hdb, ← hL]
  have hdropa : mm.data.drop ((mm.i_ + ((a * w : Nat) : Int)).toNat) =
      L.flatten ++ (lines.drop b).flatten := by
    rw [hdata, hi]
    have h1 : (((hdr.length : Nat) : Int) + ((a * w : Nat) : Int)).toNat =
        hdr.length + a * w := by omega
    rw [h1, ← List.drop_drop, List.drop_left, flatten_drop_uniform lines w hlW a, hsplit]
  have hp0 : 0 ≤ mm.i_ + ((a * w : Nat) : Int) := by omega
  have hiter := iterRecords_lines Vs mm.data L ((lines.drop b).flatten)
    (mm.i_ + ((a * w : Nat) : Int)) 0 hp0 hdropa hLok
  rw [hLlen] at hiter
  have hstop : mm.i_ + ((a * w : Nat) : Int) + ((L.flatten.length : Nat) : Int) =
      mm.i_ + ((b * w : Nat) : Int) := by
    rw [hLflat]
    have harith : a * w + (b - a) * w = b * w := by
      rw [← Nat.add_mul]
      congr 1
      omega
    omega
  rw [hstop] at hiter
  simpa using hiter

/-- Taking a prefix of the per-line records takes the same prefix of the lines. -/
theorem linesRecords_take (Vs : List AttrTy) (data : List Char) :
    ∀ (lines : List (List Char)) (p : Int) (k : Nat),
      (linesRecords Vs data p lines).take k = linesRecords Vs data p (lines.take k) := by
  intro lines
  induction lines with
  | nil => intro p k; simp [linesRecords]
  | cons l ls ih =>
    intro p k
    match k with
    | 0 => simp [linesRecords]
    | Nat.succ k =>
      show (derefEdge Vs (data.drop p.toNat) ::
        linesRecords Vs data (p + l.length) ls).take (k + 1) = _
      rw [List.take_succ_cons, ih]
      rfl

/-- Dropping `j` per-line records of a uniform region drops `j` lines and moves
the base cursor by `j * w`. -/
theorem linesRecords_drop (Vs : List AttrTy) (data : List Char) (w : Nat) :
    ∀ (j : Nat) (lines : List (List Char)) (p : Int), (∀ l ∈ lines, l.length = w) →
      (linesRecords Vs data p lines).drop j =
        linesRecords Vs data (p + ((j * w : Nat) : Int)) (lines.drop j) := by
  intro j
  induction j with
  | zero => intro lines p hlW; simp
  | succ j ih =>
    intro lines p hlW
    match lines with
    | [] => simp [linesRecords]
    | l :: ls =>
      have hl : l.length = w := hlW l (List.mem_cons_self l ls)
      show (derefEdge Vs (data.drop p.toNat) ::
        linesRecords Vs data (p + l.length) ls).drop (j + 1) = _
      simp only [List.drop_succ_cons]
      rw [ih ls (p + l.length) (fun x hx => hlW x (List.mem_cons_of_mem l hx))]
      have harith : p + (l.length : Int) + ((j * w : Nat) : Int) =
          p + (((j + 1) * w : Nat) : Int) := by
        have h2 : (j + 1) * w = j * w + w := by rw [Nat.succ_mul]
        rw [hl]
        omega
      rw [harith]

/-- C2 (amended with the uniform-line-width hypothesis): when every edge line
has the same byte width `w ≥ 2`, iterating the sub-range `edges(mm, j, k)`
yields exactly the records with indices in `[j, k)` of the full range, in the
same order, for every choice of attribute types. -/
theorem edges_subrange_uniform (mm : MatrixMarketFile) (Vs : List AttrTy)
    (hdr : List Char) (lines : List (List Char)) (w : Nat)
    (hdata : mm.data = hdr ++ lines.flatten) (hi : mm.i_ = (hdr.length : Int))
    (he : mm.e_ = (mm.data.length : Int)) (hn : mm.nnz_ = (lines.length : Int))
    (hok : ∀ l ∈ lines, lineOk l = true) (hw : 2 ≤ w) (hlW : ∀ l ∈ lines, l.length = w)
    (j k : Nat) (hjk : j ≤ k) (hk : k ≤ lines.length) :
    iterRecords Vs mm.data (k - j) (edges mm (j : Int) (k : Int)).begin_
        (edges mm (j : Int) (k : Int)).end_ =
      ((iterRecords Vs mm.data lines.length (edgesAll mm).begin_
        (edgesAll mm).end_).drop j).take (k - j) := by
  have hbeg : (edges mm (j : Int) (k : Int)).begin_ = mm.i_ + ((j * w : Nat) : Int) :=
    edge_uniform mm hdr lines w hdata hi he hn hok hw hlW j (le_trans hjk hk)
  have hEnd : (edges mm (j : Int) (k : Int)).end_ = mm.i_ + ((k * w : Nat) : Int) :=
    edge_uniform mm hdr lines w hdata hi he hn hok hw hlW k hk
  have hbeg0 : (edgesAll mm).begin_ = mm.i_ := by
    show mm.edge 0 = mm.i_
    simp [MatrixMarketFile.edge]
  have hendN : (edgesAll mm).end_ = mm.i_ + ((lines.length * w : Nat) : Int) := by
    show mm.edge mm.nnz_ = _
    rw [hn]
    exact edge_uniform mm hdr lines w hdata hi he hn hok hw hlW lines.length (le_refl _)
  have hfull := iterRecords_uniform_seg mm Vs hdr lines w hdata hi hok hlW
    0 lines.length (by omega) (le_refl _)
  simp only [Nat.sub_zero, Nat.zero_mul, Nat.cast_zero, add_zero, List.drop_zero,
    List.take_length] at hfull
  rw [hbeg, hEnd, hbeg0, hendN,
    iterRecords_uniform_seg mm Vs hdr lines w hdata hi hok hlW j k hjk hk, hfull,
    linesRecords_drop Vs mm.data w j lines mm.i_ hlW, linesRecords_take]

/-- Witness for the amended C2 at the concrete uniform handle `mmUW` with
`j = 1`, `k = 2`. -/
theorem edges_subrange_uniform_witness :
    iterRecords [] mmUW.data (2 - 1) (edges mmUW ((1 : Nat) : Int) ((2 : Nat) : Int)).begin_
        (edges mmUW ((1 : Nat) : Int) ((2 : Nat) : Int)).end_ =
      ((iterRecords [] mmUW.data 2 (edgesAll mmUW).begin_
        (edgesAll mmUW).end_).drop 1).take (2 - 1) :=
  edges_subrange_uniform mmUW [] (("h\n").toList) [("1 1\n").toList, ("2 2\n").toList] 4
    (by decide) (by decide) (by decide) (by decide) (by decide) (by decide) (by decide)
    1 2 (by decide) (by decide)

/-- The run of a predicate is no longer than the list. -/
theorem length_tw_le (f : Char → Bool) (l : List Char) :
    (l.takeWhile f).length ≤ l.length := by
  have h := congrArg List.length (List.takeWhile_append_dropWhile f l)
  simp only [List.length_append] at h
  omega

/-- A list whose members all satisfy `f` is its own run. -/
theorem takeWhile_of_all (f : Char → Bool) (l : List Char) (h : ∀ c ∈ l, f c = true) :
    l.takeWhile f = l := by
  induction l with
  | nil => rfl
  | cons c t ih =>
    rw [List.takeWhile_cons, if_pos (h c (List.mem_cons_self c t)),
      ih (fun x hx => h x (List.mem_cons_of_mem c hx))]

/-- Taking exactly the run's length recovers the run. -/
theorem take_run (f : Char → Bool) (l : List Char) :
    l.take ((l.takeWhile f).length) = l.takeWhile f := by
  induction l with
  | nil => rfl
  | cons c t ih =>
    rw [List.takeWhile_cons]
    by_cases h : f c
    · simp only [if_pos h, List.length_cons, List.take_succ_cons, ih]
    · simp [if_neg h]

/-- A take all of whose members satisfy `f` fits inside the run. -/
theorem take_all_imp (f : Char → Bool) (l : List Char) (n : Nat)
    (h : ∀ c ∈ l.take n, f c = true) : min n l.length ≤ (l.takeWhile f).length := by
  induction l generalizing n with
  | nil => simp
  | cons c t ih =>
    match n with
    | 0 => simp
    | n + 1 =>
      have hc : f c = true := h c (by simp)
      rw [List.takeWhile_cons, if_pos hc]
      have hih := ih n (fun x hx => h x (by rw [List.take_succ_cons]; exact List.mem_cons_of_mem c hx))
      simp only [List.length_cons]
      omega

/-- Members of a take inside the run satisfy `f`. -/
theorem take_in_run (f : Char → Bool) (l : List Char) (n : Nat)
    (hn : n ≤ (l.takeWhile f).length) : ∀ c ∈ l.take n, f c = true := by
  intro c hc
  have hsplit : l.take n = (l.takeWhile f).take n := by
    conv_lhs => rw [← List.takeWhile_append_dropWhile f l]
    rw [List.take_append_of_le_length hn]
  rw [hsplit] at hc
  exact List.mem_takeWhile_imp (List.mem_of_mem_take hc)

/-- The head of a `dropWhile` remainder fails the predicate. -/
theorem dropWhile_head_false (f : Char → Bool) (b : List Char) (c : Char) (t : List Char)
    (h : b.dropWhile f = c :: t) : f c = false := by
  induction b with
  | nil => simp at h
  | cons x xs ih =>
    rw [List.dropWhile_cons] at h
    by_cases hx : f x
    · rw [if_pos hx] at h; exact ih h
    · rw [if_neg hx] at h
      injection h with h1 _
      subst h1
      simpa using hx

/-- The `dropWhile` remainder is the drop at the run's length. -/
theorem dropWhile_eq_drop (f : Char → Bool) (l : List Char) :
    l.dropWhile f = l.drop ((l.takeWhile f).length) := by
  induction l with
  | nil => rfl
  | cons c t ih =>
    rw [List.dropWhile_cons, List.takeWhile_cons]
    by_cases h : f c
    · simp only [if_pos h, List.length_cons, List.drop_succ_cons, ih]
    · simp [if_neg h]

/-- Unfolding of the digit-run recognizer. -/
theorem isDigits_iff (l : List Char) :
    isDigits l = true ↔ l ≠ [] ∧ ∀ c ∈ l, Char.isDigit c = true := by
  simp [isDigits, List.all_eq_true, List.isEmpty_iff]

/-- With an empty digit run, no take is a digit token. -/
theorem digits_none (b : List Char) (hds : b.takeWhile Char.isDigit = []) (n : Nat) :
    isDigits (b.take n) = false := by
  rw [Bool.eq_false_iff]
  intro h
  rw [isDigits_iff] at h
  obtain ⟨hne, hall⟩ := h
  have hmin := take_all_imp Char.isDigit b n hall
  rw [hds] at hmin
  simp only [List.length_nil, Nat.le_zero] at hmin
  have h0 : n = 0 ∨ b.length = 0 := by omega
  rcases h0 with rfl | hb
  · exact hne (List.take_zero b)
  · have hbn : b = [] := List.length_eq_zero.mp hb
    rw [hbn] at hne
    exact hne List.take_nil

/-- Taking exactly the digit run yields a digit token. -/
theorem digits_valid (b : List Char) (hds : b.takeWhile Char.isDigit ≠ []) :
    isDigits (b.take ((b.takeWhile Char.isDigit).length)) = true := by
  rw [take_run, isDigits_iff]
  exact ⟨hds, fun c hc => List.mem_takeWhile_imp hc⟩

/-- A digit token take never exceeds the digit run. -/
theorem digits_max (b : List Char) (n : Nat) (hn : n ≤ b.length)
    (h : isDigits (b.take n) = true) : n ≤ (b.takeWhile Char.isDigit).length := by
  rw [isDigits_iff] at h
  have := take_all_imp Char.isDigit b n h.2
  omega

/-- Shape of `splitSign`: nothing consumed (empty list or unsigned head), or
exactly one sign character consumed. -/
theorem splitSign_shape (s : List Char) :
    (s = [] ∧ (splitSign s).2 = s) ∨
    (∃ c t, s = c :: t ∧ c ≠ '+' ∧ c ≠ '-' ∧ (splitSign s).2 = s) ∨
    (∃ c t, s = c :: t ∧ (c = '+' ∨ c = '-') ∧ (splitSign s).2 = t) := by
  match s with
  | [] => exact Or.inl ⟨rfl, rfl⟩
  | c :: t =>
    by_cases h1 : c = '+'
    · exact Or.inr (Or.inr ⟨c, t, rfl, Or.inl h1, by simp [splitSign, h1]⟩)
    by_cases h2 : c = '-'
    · exact Or.inr (Or.inr ⟨c, t, rfl, Or.inr h2, by simp [splitSign, h1, h2]⟩)
    · exact Or.inr (Or.inl ⟨c, t, rfl, h1, h2, by simp [splitSign, h1, h2]⟩)

/-- The sign-stripped remainder is never longer than the token. -/
theorem splitSign_len_le (s : List Char) : (splitSign s).2.length ≤ s.length := by
  rcases splitSign_shape s with ⟨rfl, h⟩ | ⟨c, t, rfl, _, _, h⟩ | ⟨c, t, rfl, _, h⟩ <;>
    rw [h] <;> simp

/-- The sign-stripped remainder is a drop of the token. -/
theorem splitSign_drop (s : List Char) :
    (splitSign s).2 = s.drop (s.length - (splitSign s).2.length) := by
  rcases splitSign_shape s with ⟨rfl, h⟩ | ⟨c, t, rfl, _, _, h⟩ | ⟨c, t, rfl, _, h⟩ <;> rw [h] <;> simp

/-- Stripping the sign commutes with taking a nonempty prefix of the token. -/
theorem splitSign_take (s : List Char) (m : Nat) (hm : 1 ≤ m) :
    (splitSign (s.take m)).2 =
      (splitSign s).2.take (m - (s.length - (splitSign s).2.length)) := by
  obtain ⟨m', rfl⟩ : ∃ m', m = m' + 1 := ⟨m - 1, by omega⟩
  rcases splitSign_shape s with ⟨rfl, h⟩ | ⟨c, t, rfl, h1, h2, h⟩ | ⟨c, t, rfl, hsgn, h⟩
  · simp [splitSign]
  · rw [h, List.take_succ_cons]
    have hc : (splitSign (c :: t.take m')).2 = c :: t.take m' := by
      simp [splitSign, h1, h2]
    rw [hc]
    simp [List.take_succ_cons]
  · rw [h, List.take_succ_cons]
    have hc : (splitSign (c :: t.take m')).2 = t.take m' := by
      rcases hsgn with rfl | rfl <;> simp [splitSign]
    rw [hc]
    have hlen : (c :: t).length - t.length = 1 := by simp
    rw [hlen]
    simp

/-- The integer grammar is the digit grammar after the optional sign. -/
theorem isIntTok_eq (l : List Char) : isIntTok l = isDigits (splitSign l).2 := by
  match l with
  | [] => rfl
  | c :: t =>
    by_cases h1 : c = '+'
    · simp [isIntTok, splitSign, h1]
    by_cases h2 : c = '-'
    · simp [isIntTok, splitSign, h1, h2]
    · simp [isIntTok, splitSign, h1, h2]

/-- With no digit after the optional sign, no prefix is an integer token. -/
theorem maxTokLen_int_zero (s1 : List Char)
    (hds : (splitSign s1).2.takeWhile Char.isDigit = []) :
    maxTokLen isIntTok s1 = 0 := by
  unfold maxTokLen
  refine Nat.findGreatest_eq_iff.mpr ⟨Nat.zero_le _, fun h => absurd rfl h, ?_⟩
  intro n h0 hn hP
  rw [isIntTok_eq, splitSign_take s1 n (by omega)] at hP
  rw [digits_none _ hds _] at hP
  exact Bool.false_ne_true hP

/-- With digits after the optional sign, the longest integer-token prefix is
the sign plus the digit run. -/
theorem maxTokLen_int_pos (s1 : List Char)
    (hds : (splitSign s1).2.takeWhile Char.isDigit ≠ []) :
    maxTokLen isIntTok s1 =
      (s1.length - (splitSign s1).2.length) +
        ((splitSign s1).2.takeWhile Char.isDigit).length := by
  have hb := splitSign_len_le s1
  have hds_pos : 0 < ((splitSign s1).2.takeWhile Char.isDigit).length :=
    List.length_pos.mpr hds
  have hrun := length_tw_le Char.isDigit (splitSign s1).2
  unfold maxTokLen
  refine Nat.findGreatest_eq_iff.mpr ⟨by omega, fun _ => ?_, ?_⟩
  · rw [isIntTok_eq, splitSign_take s1 _ (by omega)]
    have harg : (s1.length - (splitSign s1).2.length) +
        ((splitSign s1).2.takeWhile Char.isDigit).length -
        (s1.length - (splitSign s1).2.length) =
        ((splitSign s1).2.takeWhile Char.isDigit).length := by omega
    rw [harg]
    exact digits_valid _ hds
  · intro n hlt hle hP
    rw [isIntTok_eq, splitSign_take s1 _ (by omega)] at hP
    have := digits_max _ _ (by omega) hP
    omega

/-- The suffix left by `strtol` is the one prescribed by the integer grammar:
nothing on an empty match, whitespace plus sign plus digit run otherwise. -/
theorem strtol_rest_eq (s : List Char) : (strtol s).2 = specRest isIntTok s := by
  by_cases hds : ((splitSign (s.dropWhile isSpace)).2.takeWhile Char.isDigit) = []
  · have h1 : strtol s = (0, s) := by
      simp only [strtol]
      rw [if_pos hds]
    rw [h1]
    simp only [specRest]
    rw [maxTokLen_int_zero _ hds, if_pos rfl]
  · have h1 : (strtol s).2 = (splitSign (s.dropWhile isSpace)).2.dropWhile Char.isDigit := by
      simp only [strtol]
      rw [if_neg hds]
    rw [h1]
    simp only [specRest]
    rw [maxTokLen_int_pos _ hds]
    have hds_pos : 0 < ((splitSign (s.dropWhile isSpace)).2.takeWhile Char.isDigit).length :=
      List.length_pos.mpr hds
    rw [if_neg (by omega)]
    rw [dropWhile_eq_drop Char.isDigit]
    conv_rhs => rw [← List.drop_drop]
    congr 1
    exact splitSign_drop _

/-- `strtoul` leaves the same suffix as `strtol`. -/
theorem strtoul_rest (s : List Char) : (strtoul s).2 = (strtol s).2 := by
  simp only [strtol, strtoul]
  by_cases hds : ((splitSign (s.dropWhile isSpace)).2.takeWhile Char.isDigit) = [] <;>
    simp [hds]

/-- On an empty integer match, `strtol` performs no conversion. -/
theorem strtol_noconv (s : List Char)
    (h : maxTokLen isIntTok (s.dropWhile isSpace) = 0) : strtol s = (0, s) := by
  by_cases hds : ((splitSign (s.dropWhile isSpace)).2.takeWhile Char.isDigit) = []
  · simp only [strtol]
    rw [if_pos hds]
  · rw [maxTokLen_int_pos _ hds] at h
    have := List.length_pos.mpr hds
    omega

/-- On an empty integer match, `strtoul` performs no conversion. -/
theorem strtoul_noconv (s : List Char)
    (h : maxTokLen isIntTok (s.dropWhile isSpace) = 0) : strtoul s = (0, s) := by
  by_cases hds : ((splitSign (s.dropWhile isSpace)).2.takeWhile Char.isDigit) = []
  · simp only [strtoul]
    rw [if_pos hds]
  · rw [maxTokLen_int_pos _ hds] at h
    have := List.length_pos.mpr hds
    omega

/-- `dropWhile` over satisfying elements, a failing element and a tail starts
at the failing element. -/
theorem dropWhile_middle {f : Char → Bool} (xs : List Char) (c : Char) (ys : List Char)
    (hall : ∀ x ∈ xs, f x = true) (hc : f c = false) :
    (xs ++ c :: ys).dropWhile f = c :: ys := by
  induction xs with
  | nil => simp [List.dropWhile_cons, hc]
  | cons x xs ih =>
    have hx : f x = true := hall x (List.mem_cons_self x xs)
    simp only [List.cons_append, List.dropWhile_cons, hx, if_true]
    exact ih (fun y hy => hall y (List.mem_cons_of_mem x hy))

/-- An exponent marker is neither a digit nor a point. -/
theorem dd_expChar (c : Char) (h : c = 'e' ∨ c = 'E') :
    (Char.isDigit c || c == '.') = false := by
  rcases h with rfl | rfl <;> decide

/-- A digit is not a sign character. -/
theorem digit_ne_sign (c : Char) (h : Char.isDigit c = true) : c ≠ '+' ∧ c ≠ '-' := by
  constructor <;> rintro rfl <;> exact absurd h (by decide)

/-- A digit is not a point. -/
theorem digit_ne_dot (c : Char) (h : Char.isDigit c = true) : c ≠ '.' := by
  rintro rfl
  exact absurd h (by decide)

/-- Unfolding of the mantissa recognizer. -/
theorem isMant_iff (l : List Char) :
    isMant l = true ↔
      (∀ c ∈ l, (Char.isDigit c || c == '.') = true) ∧ l.count '.' ≤ 1 ∧
        (∃ c ∈ l, Char.isDigit c = true) := by
  simp [isMant, List.all_eq_true, List.any_eq_true, and_assoc]

/-- A mantissa with two leading points is rejected. -/
theorem isMant_two_dots (rest : List Char) : isMant ('.' :: '.' :: rest) = false := by
  rw [Bool.eq_false_iff]
  intro h
  have h2 := (isMant_iff _).1 h |>.2.1
  simp [List.count_cons] at h2

/-- A mantissa without a digit is rejected. -/
theorem isMant_no_digit (l : List Char) (h : ∀ c ∈ l, Char.isDigit c = false) :
    isMant l = false := by
  rw [Bool.eq_false_iff]
  intro hT
  obtain ⟨c, hc, hdig⟩ := (isMant_iff _).1 hT |>.2.2
  rw [h c hc] at hdig
  exact Bool.false_ne_true hdig

/-- A digit run with at least one digit is a valid mantissa. -/
theorem isMant_digits (l : List Char) (hne : l ≠ []) (hall : ∀ c ∈ l, Char.isDigit c = true) :
    isMant l = true := by
  rw [isMant_iff]
  refine ⟨fun c hc => by simp [hall c hc], ?_, ?_⟩
  · have : l.count '.' = 0 := by
      rw [List.count_eq_zero]
      intro hmem
      exact absurd (hall _ hmem) (by decide)
    omega
  · match l with
    | [] => exact absurd rfl hne
    | c :: t => exact ⟨c, List.mem_cons_self c t, hall c (List.mem_cons_self c t)⟩

/-- A digit run, a point and a digit run form a valid mantissa when a digit is
present. -/
theorem isMant_dotted (d1 d2 : List Char) (hall1 : ∀ c ∈ d1, Char.isDigit c = true)
    (hall2 : ∀ c ∈ d2, Char.isDigit c = true) (hne : d1 ≠ [] ∨ d2 ≠ []) :
    isMant (d1 ++ '.' :: d2) = true := by
  rw [isMant_iff]
  refine ⟨?_, ?_, ?_⟩
  · intro c hc
    rcases List.mem_append.1 hc with h | h
    · simp [hall1 c h]
    · rcases List.mem_cons.1 h with rfl | h
      · simp
      · simp [hall2 c h]
  · have h1 : d1.count '.' = 0 := by
      rw [List.count_eq_zero]
      intro hmem
      exact absurd (hall1 _ hmem) (by decide)
    have h2 : d2.count '.' = 0 := by
      rw [List.count_eq_zero]
      intro hmem
      exact absurd (hall2 _ hmem) (by decide)
    simp [List.count_append, List.count_cons, h1, h2]
  · rcases hne with h | h
    · match d1, h with
      | c :: t, _ =>
        exact ⟨c, by simp, hall1 c (List.mem_cons_self c t)⟩
    · match d2, h with
      | c :: t, _ =>
        refine ⟨c, ?_, hall2 c (List.mem_cons_self c t)⟩
        simp

/-- Unfolding of the exponent-part recognizer. -/
theorem isExpTail_iff (l : List Char) :
    isExpTail l = true ↔
      ∃ c t, l = c :: t ∧ (c = 'e' ∨ c = 'E') ∧ isDigits (splitSign t).2 = true := by
  match l with
  | [] => simp [isExpTail]
  | c :: t =>
    simp only [isExpTail, Bool.and_eq_true, decide_eq_true_eq]
    constructor
    · rintro ⟨h1, h2⟩
      exact ⟨c, t, rfl, h1, h2⟩
    · rintro ⟨c', t', heq, h1, h2⟩
      injection heq with e1 e2
      subst e1; subst e2
      exact ⟨h1, h2⟩

/-- Decomposition of a body into its mantissa region and the remainder that
`fracPart` leaves: the mantissa region is all digits and points, is the claimed
length, has no digit exactly when no conversion happens, and is a valid
mantissa otherwise. -/
theorem mant_decomp (b : List Char) :
    ∃ mant, b = mant ++ (fracPart (b.dropWhile Char.isDigit)).2 ∧
      mant.length = mantLen b ∧
      (∀ c ∈ mant, (Char.isDigit c || c == '.') = true) ∧
      ((b.takeWhile Char.isDigit = [] ∧ (fracPart (b.dropWhile Char.isDigit)).1 = []) →
        ∀ c ∈ mant, Char.isDigit c = false) ∧
      (¬(b.takeWhile Char.isDigit = [] ∧ (fracPart (b.dropWhile Char.isDigit)).1 = []) →
        isMant mant = true) ∧
      (((fracPart (b.dropWhile Char.isDigit)).2).head? = some '.' → 1 ≤ mant.count '.') := by
  have hbsplit : b = b.takeWhile Char.isDigit ++ b.dropWhile Char.isDigit :=
    (List.takeWhile_append_dropWhile Char.isDigit b).symm
  have htw : ∀ c ∈ b.takeWhile Char.isDigit, Char.isDigit c = true :=
    fun c hc => List.mem_takeWhile_imp hc
  cases hr : b.dropWhile Char.isDigit with
  | nil =>
    refine ⟨b.takeWhile Char.isDigit, ?_, ?_, fun c hc => by simp [htw c hc], ?_, ?_, ?_⟩
    · simp [fracPart, hr]
      conv_lhs => rw [hbsplit, hr]
      simp
    · simp [mantLen, hr]
    · rintro ⟨h1, _⟩ c hc
      rw [h1] at hc
      simp at hc
    · rintro h
      simp only [fracPart, hr] at h
      push_neg at h
      exact isMant_digits _ (by tauto) htw
    · intro hh
      simp [fracPart] at hh
  | cons c t =>
    have hc : Char.isDigit c = false := dropWhile_head_false Char.isDigit b c t hr
    by_cases hdot : c = '.'
    · subst hdot
      have htw2 : ∀ x ∈ t.takeWhile Char.isDigit, Char.isDigit x = true :=
        fun x hx => List.mem_takeWhile_imp hx
      have hfr1 : (fracPart ('.' :: t)).1 = t.takeWhile Char.isDigit := by
        simp [fracPart]
      have hfr2 : (fracPart ('.' :: t)).2 = t.dropWhile Char.isDigit := by
        simp [fracPart]
      refine ⟨b.takeWhile Char.isDigit ++ '.' :: t.takeWhile Char.isDigit, ?_, ?_, ?_, ?_, ?_, ?_⟩
      · rw [hfr2]
        conv_lhs => rw [hbsplit, hr]
        simp only [List.append_assoc, List.cons_append, List.append_cancel_left_eq]
        rw [List.cons.injEq]
        exact ⟨rfl, (List.takeWhile_append_dropWhile Char.isDigit t).symm⟩
      · simp [mantLen, hr]
        omega
      · intro x hx
        rcases List.mem_append.1 hx with h | h
        · simp [htw x h]
        · rcases List.mem_cons.1 h with rfl | h
          · simp
          · simp [htw2 x h]
      · rintro ⟨h1, h2⟩ x hx
        rw [hfr1] at h2
        rw [h1, h2] at hx
        simp only [List.nil_append, List.mem_singleton] at hx
        subst hx
        decide
      · intro h
        rw [hfr1] at h
        push_neg at h
        apply isMant_dotted _ _ htw htw2
        by_cases h1 : b.takeWhile Char.isDigit = []
        · exact Or.inr (h h1)
        · exact Or.inl h1
      · intro _
        rw [List.count_append, List.count_cons]
        simp
        omega
    · refine ⟨b.takeWhile Char.isDigit, ?_, ?_, fun x hx => by simp [htw x hx], ?_, ?_, ?_⟩
      · simp only [fracPart, hr, if_neg hdot]
        conv_lhs => rw [hbsplit, hr]
      · simp [mantLen, hr, hdot]
      · rintro ⟨h1, _⟩ x hx
        rw [h1] at hx
        simp at hx
      · rintro h
        simp only [fracPart, hr, if_neg hdot] at h
        push_neg at h
        exact isMant_digits _ (by tauto) htw
      · intro hh
        simp only [fracPart, if_neg hdot, List.head?_cons, Option.some.injEq] at hh
        exact absurd hh hdot

/-- Shape of the exponent part: nothing consumed, or a marker, an optional sign
and a nonempty digit run. -/
theorem expPart_cases (r2 : List Char) :
    (expLen r2 = 0 ∧ (expPart r2).2 = r2) ∨
    (∃ c t, r2 = c :: t ∧ (c = 'e' ∨ c = 'E') ∧
      (splitSign t).2.takeWhile Char.isDigit ≠ [] ∧
      expLen r2 = 1 + (t.length - (splitSign t).2.length) +
        ((splitSign t).2.takeWhile Char.isDigit).length ∧
      (expPart r2).2 = (splitSign t).2.dropWhile Char.isDigit) := by
  match r2 with
  | [] => exact Or.inl ⟨rfl, rfl⟩
  | c :: t =>
    by_cases hece : c = 'e' ∨ c = 'E'
    · by_cases heds : (splitSign t).2.takeWhile Char.isDigit = []
      · exact Or.inl ⟨by simp [expLen, hece, heds], by simp [expPart, hece, heds]⟩
      · exact Or.inr ⟨c, t, rfl, hece, heds,
          by simp [expLen, hece, heds], by simp [expPart, hece, heds]⟩
    · exact Or.inl ⟨by simp [expLen, hece], by simp [expPart, hece]⟩

/-- A body whose digit/point run fails the mantissa grammar is not in the
floating-point grammar. -/
theorem floatBody_false_of_mant_false (l : List Char)
    (h : isMant (l.takeWhile (fun c => Char.isDigit c || c == '.')) = false) :
    floatBody l = false := by
  simp [floatBody, h]

/-- With no digit available to the mantissa, no take of the body is in the
floating-point grammar. -/
theorem floatBody_none (b : List Char)
    (hip : b.takeWhile Char.isDigit = [])
    (hfp : (fracPart (b.dropWhile Char.isDigit)).1 = []) :
    ∀ n, floatBody (b.take n) = false := by
  intro n
  apply floatBody_false_of_mant_false
  cases b with
  | nil => rw [List.take_nil]; decide
  | cons x t =>
    have hx : Char.isDigit x = false := by
      cases hd : Char.isDigit x
      · rfl
      · rw [List.takeWhile_cons, if_pos hd] at hip
        exact absurd hip (by simp)
    cases n with
    | zero => rw [List.take_zero]; decide
    | succ n =>
      rw [List.take_succ_cons]
      by_cases hdot : x = '.'
      · subst hdot
        rw [List.takeWhile_cons, if_pos (by decide)]
        have hX : (t.take n).takeWhile (fun c => Char.isDigit c || c == '.') =
            (t.takeWhile (fun c => Char.isDigit c || c == '.')).take n :=
          (List.take_takeWhile _ n).symm
        rw [hX]
        have hdp : ('.' :: t).dropWhile Char.isDigit = '.' :: t := by
          rw [List.dropWhile_cons, if_neg (by simp [hx])]
        rw [hdp] at hfp
        have hfp' : t.takeWhile Char.isDigit = [] := by
          simpa [fracPart] using hfp
        cases t with
        | nil => simp only [List.takeWhile_nil, List.take_nil]; decide
        | cons y t2 =>
          have hy : Char.isDigit y = false := by
            cases hd : Char.isDigit y
            · rfl
            · rw [List.takeWhile_cons, if_pos hd] at hfp'
              exact absurd hfp' (by simp)
          by_cases hydot : y = '.'
          · subst hydot
            rw [List.takeWhile_cons, if_pos (by decide)]
            cases n with
            | zero => rw [List.take_zero]; decide
            | succ n =>
              rw [List.take_succ_cons]
              exact isMant_two_dots _
          · rw [List.takeWhile_cons, if_neg (by simp [hy, hydot]), List.take_nil]
            decide
      · rw [List.takeWhile_cons, if_neg (by simp [hx, hdot])]
        decide

/-- A token splits into its sign characters and its sign-stripped remainder. -/
theorem t3_decomp (t3 : List Char) :
    t3 = t3.take (t3.length - (splitSign t3).2.length) ++ (splitSign t3).2 := by
  conv_lhs => rw [← List.take_append_drop (t3.length - (splitSign t3).2.length) t3]
  rw [← splitSign_drop]

/-- Taking the sign plus the digit run takes exactly the sign characters
followed by the digit run. -/
theorem sgn_eds_take (t3 : List Char) :
    t3.take ((t3.length - (splitSign t3).2.length) +
        ((splitSign t3).2.takeWhile Char.isDigit).length) =
      t3.take (t3.length - (splitSign t3).2.length) ++
        (splitSign t3).2.takeWhile Char.isDigit := by
  have hle := splitSign_len_le t3
  set sl := t3.length - (splitSign t3).2.length with hsl
  set q2 := (splitSign t3).2 with hq2
  have hlen : (t3.take sl).length = sl := by
    rw [List.length_take]
    omega
  calc t3.take (sl + (q2.takeWhile Char.isDigit).length)
      = (t3.take sl ++ q2).take ((t3.take sl).length + (q2.takeWhile Char.isDigit).length) := by
        rw [hlen, ← t3_decomp t3]
  _ = t3.take sl ++ q2.take ((q2.takeWhile Char.isDigit).length) := List.take_append _
  _ = t3.take sl ++ q2.takeWhile Char.isDigit := by rw [take_run]

/-- The exponent part of the recognizer, spelled through the integer grammar. -/
theorem isExpTail_eq_intTok (c : Char) (u : List Char) :
    isExpTail (c :: u) = (decide (c = 'e' ∨ c = 'E') && isIntTok u) := by
  simp [isExpTail, isIntTok_eq]

/-- Taking the sign plus the digit run of a token yields an integer token. -/
theorem isIntTok_take_valid (s1 : List Char)
    (hds : (splitSign s1).2.takeWhile Char.isDigit ≠ []) :
    isIntTok (s1.take ((s1.length - (splitSign s1).2.length) +
      ((splitSign s1).2.takeWhile Char.isDigit).length)) = true := by
  rw [isIntTok_eq, splitSign_take s1 _ (by
    have := List.length_pos.mpr hds
    omega)]
  have harg : (s1.length - (splitSign s1).2.length) +
      ((splitSign s1).2.takeWhile Char.isDigit).length -
      (s1.length - (splitSign s1).2.length) =
      ((splitSign s1).2.takeWhile Char.isDigit).length := by omega
  rw [harg]
  exact digits_valid _ hds

/-- An integer-token take is bounded by the sign plus the digit run. -/
theorem isIntTok_take_max (s1 : List Char) (n : Nat) (hn : n ≤ s1.length)
    (h : isIntTok (s1.take n) = true) :
    (splitSign s1).2.takeWhile Char.isDigit ≠ [] ∧
      n ≤ (s1.length - (splitSign s1).2.length) +
        ((splitSign s1).2.takeWhile Char.isDigit).length := by
  have hb := splitSign_len_le s1
  match n with
  | 0 =>
    rw [List.take_zero] at h
    exact absurd h (by decide)
  | n + 1 =>
    rw [isIntTok_eq, splitSign_take s1 _ (by omega)] at h
    by_cases hds : (splitSign s1).2.takeWhile Char.isDigit = []
    · rw [digits_none _ hds] at h
      exact absurd h (by simp)
    · have := digits_max _ _ (show n + 1 - (s1.length - (splitSign s1).2.length) ≤
        (splitSign s1).2.length by omega) h
      exact ⟨hds, by omega⟩

/-- `takeWhile` over a list whose prefix is all-satisfying passes the prefix
through. -/
theorem takeWhile_all_append (f : Char → Bool) (xs ys : List Char)
    (hall : ∀ x ∈ xs, f x = true) :
    (xs ++ ys).takeWhile f = xs ++ ys.takeWhile f := by
  induction xs with
  | nil => simp
  | cons x xs ih =>
    have hx : f x = true := hall x (List.mem_cons_self x xs)
    simp only [List.cons_append, List.takeWhile_cons, hx, if_true]
    rw [ih (fun y hy => hall y (List.mem_cons_of_mem x hy))]

/-- The head of what remains after the mantissa is never a digit. -/
theorem fr2_head_not_digit (b : List Char) (c : Char) (t2 : List Char)
    (h : (fracPart (b.dropWhile Char.isDigit)).2 = c :: t2) : Char.isDigit c = false := by
  cases hr : b.dropWhile Char.isDigit with
  | nil =>
    rw [hr] at h
    simp [fracPart] at h
  | cons x t =>
    rw [hr] at h
    by_cases hxdot : x = '.'
    · subst hxdot
      have h2 : (fracPart ('.' :: t)).2 = t.dropWhile Char.isDigit := by
        simp [fracPart]
      rw [h2] at h
      exact dropWhile_head_false _ t c t2 h
    · have h2 : (fracPart (x :: t)).2 = x :: t := by
        simp [fracPart, hxdot]
      rw [h2] at h
      injection h with h1 _
      subst h1
      exact dropWhile_head_false Char.isDigit b _ _ hr

/-- Validity and bookkeeping of the subject sequence found by `strtod` in a
body under conversion: taking `bodyLen` characters yields a float token, the
length is positive and fits the body, and the remainder is the suffix at the
resulting end pointer. -/
theorem floatBody_valid (b : List Char)
    (hconv : ¬(b.takeWhile Char.isDigit = [] ∧ (fracPart (b.dropWhile Char.isDigit)).1 = [])) :
    floatBody (b.take (bodyLen b)) = true ∧ 1 ≤ bodyLen b ∧ bodyLen b ≤ b.length ∧
      b.drop (bodyLen b) = (expPart (fracPart (b.dropWhile Char.isDigit)).2).2 := by
  obtain ⟨mant, hb, hlen, hdd, _, hman, _⟩ := mant_decomp b
  have hmant := hman hconv
  have hmne : mant ≠ [] := by
    intro h
    rw [h] at hmant
    exact absurd hmant (by decide)
  have hmpos : 0 < mant.length := List.length_pos.mpr hmne
  rcases expPart_cases ((fracPart (b.dropWhile Char.isDigit)).2) with
    ⟨he0, her⟩ | ⟨c, t3, hfr2eq, hece, heds, helen, her⟩
  · have hbl : bodyLen b = mant.length := by
      rw [bodyLen, he0, Nat.add_zero, hlen]
    have htake : b.take (bodyLen b) = mant := by
      rw [hbl, hb]
      exact List.take_left _ _
    have hdrop : b.drop (bodyLen b) = (fracPart (b.dropWhile Char.isDigit)).2 := by
      have h := congrArg (fun L : List Char => L.drop mant.length) hb
      simp only at h
      rw [hbl, h, List.drop_left]
    refine ⟨?_, by omega, ?_, by rw [hdrop, her]⟩
    · rw [htake]
      have h1 : mant.takeWhile (fun c => Char.isDigit c || c == '.') = mant :=
        takeWhile_of_all _ _ hdd
      have h2 : mant.dropWhile (fun c => Char.isDigit c || c == '.') = [] := by
        rw [dropWhile_eq_drop, h1, List.drop_length]
      simp [floatBody, h1, h2, hmant]
    · have h := congrArg List.length hb
      simp only [List.length_append] at h
      omega
  · have hq2le := splitSign_len_le t3
    have hseg := sgn_eds_take t3
    have hslen : (t3.take (t3.length - (splitSign t3).2.length)).length =
        t3.length - (splitSign t3).2.length := by
      rw [List.length_take]
      omega
    have ht3d := t3_decomp t3
    have hq2d : (splitSign t3).2 = (splitSign t3).2.takeWhile Char.isDigit ++
        (splitSign t3).2.dropWhile Char.isDigit := (List.takeWhile_append_dropWhile _ _).symm
    have hbfull : b = (mant ++ c :: (t3.take (t3.length - (splitSign t3).2.length) ++
        (splitSign t3).2.takeWhile Char.isDigit)) ++ (splitSign t3).2.dropWhile Char.isDigit := by
      rw [hb, hfr2eq]
      calc mant ++ c :: t3
          = mant ++ c :: (t3.take (t3.length - (splitSign t3).2.length) ++
            ((splitSign t3).2.takeWhile Char.isDigit ++
              (splitSign t3).2.dropWhile Char.isDigit)) := by
            rw [← hq2d, ← ht3d]
      _ = _ := by simp [List.append_assoc]
    have hblen : bodyLen b = mant.length + (1 + ((t3.length - (splitSign t3).2.length) +
        ((splitSign t3).2.takeWhile Char.isDigit).length)) := by
      rw [bodyLen, helen, ← hlen]
      omega
    have hpre : (mant ++ c :: (t3.take (t3.length - (splitSign t3).2.length) ++
        (splitSign t3).2.takeWhile Char.isDigit)).length = bodyLen b := by
      rw [hblen]
      simp only [List.length_append, List.length_cons, hslen]
      omega
    have htake : b.take (bodyLen b) = mant ++ c :: (t3.take (t3.length -
        (splitSign t3).2.length) ++ (splitSign t3).2.takeWhile Char.isDigit) := by
      have h := congrArg (fun L : List Char => L.take (bodyLen b)) hbfull
      simp only at h
      rw [h, ← hpre, List.take_left]
    have hdrop : b.drop (bodyLen b) = (splitSign t3).2.dropWhile Char.isDigit := by
      have h := congrArg (fun L : List Char => L.drop (bodyLen b)) hbfull
      simp only at h
      rw [h, ← hpre, List.drop_left]
    refine ⟨?_, by omega, ?_, by rw [hdrop, her]⟩
    · rw [htake]
      have hddc : ((fun c => Char.isDigit c || c == '.') c) = false := dd_expChar c hece
      have h1 := takeWhile_middle (f := fun c => Char.isDigit c || c == '.')
        mant c (t3.take (t3.length - (splitSign t3).2.length) ++
          (splitSign t3).2.takeWhile Char.isDigit) hdd hddc
      have h2 := dropWhile_middle (f := fun c => Char.isDigit c || c == '.')
        mant c (t3.take (t3.length - (splitSign t3).2.length) ++
          (splitSign t3).2.takeWhile Char.isDigit) hdd hddc
      simp only [floatBody, h1, h2, hmant, Bool.true_and, List.isEmpty_cons, Bool.false_or]
      rw [isExpTail_eq_intTok, ← hseg]
      simp only [hece, decide_true_eq_true, Bool.true_and]
      exact isIntTok_take_valid t3 heds
    · have h := congrArg List.length hbfull
      simp only [List.length_append, List.length_cons, hslen] at h
      omega

/-- Maximality of the subject sequence found by `strtod`: no longer take of
the body is in the floating-point grammar. -/
theorem floatBody_max (b : List Char) (n : Nat) (hn : n ≤ b.length)
    (hfb : floatBody (b.take n) = true) : n ≤ bodyLen b := by
  by_cases hconv : b.takeWhile Char.isDigit = [] ∧ (fracPart (b.dropWhile Char.isDigit)).1 = []
  · rw [floatBody_none b hconv.1 hconv.2 n] at hfb
    exact absurd hfb (by simp)
  · obtain ⟨mant, hb, hlen, hdd, _, _, hdot1⟩ := mant_decomp b
    have hmle : mantLen b ≤ bodyLen b := Nat.le_add_right _ _
    simp only [floatBody, Bool.and_eq_true, Bool.or_eq_true] at hfb
    obtain ⟨hmu, hru⟩ := hfb
    by_cases hle : n ≤ mant.length
    · omega
    push_neg at hle
    cases hfr : (fracPart (b.dropWhile Char.isDigit)).2 with
    | nil =>
      rw [hfr, List.append_nil] at hb
      have := congrArg List.length hb
      omega
    | cons c t2 =>
      rw [hfr] at hb
      have hk : n - mant.length - 1 + 1 = n - mant.length := by omega
      have h1 : n = mant.length + (n - mant.length) := by omega
      have htaken : b.take n = mant ++ c :: t2.take (n - mant.length - 1) := by
        conv_lhs => rw [hb, h1, List.take_append, ← hk, List.take_succ_cons]
      by_cases hcdot : c = '.'
      · subst hcdot
        have hct : 1 ≤ mant.count '.' := hdot1 (by rw [hfr]; rfl)
        have hmuEq : (b.take n).takeWhile (fun c => Char.isDigit c || c == '.') =
            mant ++ '.' :: (t2.take (n - mant.length - 1)).takeWhile
              (fun c => Char.isDigit c || c == '.') := by
          rw [htaken, takeWhile_all_append _ _ _ hdd, List.takeWhile_cons,
            if_pos (by decide)]
        have hcnt := ((isMant_iff _).1 hmu).2.1
        rw [hmuEq] at hcnt
        simp only [List.count_append, List.count_cons] at hcnt
        simp at hcnt
        omega
      · have hcd : Char.isDigit c = false := fr2_head_not_digit b c t2 hfr
        have hcdd : ((fun c => Char.isDigit c || c == '.') c) = false := by
          simp [hcd, hcdot]
        have hru2 : (b.take n).dropWhile (fun c => Char.isDigit c || c == '.') =
            c :: t2.take (n - mant.length - 1) := by
          rw [htaken]
          exact dropWhile_middle _ _ _ hdd hcdd
        rw [hru2] at hru
        rcases hru with hru | hru
        · simp at hru
        · rw [isExpTail_eq_intTok] at hru
          simp only [Bool.and_eq_true, decide_eq_true_eq] at hru
          obtain ⟨hece, hint⟩ := hru
          have hblen := congrArg List.length hb
          simp only [List.length_append, List.length_cons] at hblen
          have hbound : n - mant.length - 1 ≤ t2.length := by omega
          obtain ⟨hne, hmax⟩ := isIntTok_take_max t2 _ hbound hint
          have hexp : expLen ((fracPart (b.dropWhile Char.isDigit)).2) =
              1 + (t2.length - (splitSign t2).2.length) +
                ((splitSign t2).2.takeWhile Char.isDigit).length := by
            rw [hfr]
            simp [expLen, hece, hne]
          rw [bodyLen, hexp, ← hlen]
          omega

/-- With no mantissa digit after the optional sign, no prefix is a float
token. -/
theorem maxTokLen_float_zero (s1 : List Char)
    (hip : (splitSign s1).2.takeWhile Char.isDigit = [])
    (hfp : (fracPart ((splitSign s1).2.dropWhile Char.isDigit)).1 = []) :
    maxTokLen isFloatTok s1 = 0 := by
  unfold maxTokLen
  refine Nat.findGreatest_eq_iff.mpr ⟨Nat.zero_le _, fun h => absurd rfl h, ?_⟩
  intro n h0 hn hP
  simp only [isFloatTok] at hP
  rw [splitSign_take s1 n (by omega)] at hP
  rw [floatBody_none _ hip hfp _] at hP
  exact Bool.false_ne_true hP

/-- With a mantissa digit available, the longest float-token prefix is the
sign plus the subject-sequence body. -/
theorem maxTokLen_float_pos (s1 : List Char)
    (hconv : ¬((splitSign s1).2.takeWhile Char.isDigit = [] ∧
      (fracPart ((splitSign s1).2.dropWhile Char.isDigit)).1 = [])) :
    maxTokLen isFloatTok s1 =
      (s1.length - (splitSign s1).2.length) + bodyLen (splitSign s1).2 := by
  have hb := splitSign_len_le s1
  obtain ⟨hfb, hpos, hble, _⟩ := floatBody_valid (splitSign s1).2 hconv
  unfold maxTokLen
  refine Nat.findGreatest_eq_iff.mpr ⟨by omega, fun _ => ?_, ?_⟩
  · simp only [isFloatTok]
    rw [splitSign_take s1 _ (by omega)]
    have harg : (s1.length - (splitSign s1).2.length) + bodyLen (splitSign s1).2 -
        (s1.length - (splitSign s1).2.length) = bodyLen (splitSign s1).2 := by omega
    rw [harg]
    exact hfb
  · intro n hlt hle hP
    simp only [isFloatTok] at hP
    rw [splitSign_take s1 _ (by omega)] at hP
    have hmax := floatBody_max (splitSign s1).2 _ (by omega) hP
    omega

/-- The suffix left by `strtod` is the one prescribed by the floating-point
grammar: nothing on an empty match, whitespace plus sign plus body
otherwise. -/
theorem strtod_rest_eq (s : List Char) : (strtod s).2 = specRest isFloatTok s := by
  by_cases hconv : ((splitSign (s.dropWhile isSpace)).2.takeWhile Char.isDigit = [] ∧
      (fracPart ((splitSign (s.dropWhile isSpace)).2.dropWhile Char.isDigit)).1 = [])
  · have h1 : strtod s = (0, s) := by
      simp only [strtod]
      rw [if_pos hconv]
    rw [h1]
    simp only [specRest]
    rw [maxTokLen_float_zero _ hconv.1 hconv.2, if_pos rfl]
  · have h1 : (strtod s).2 =
        (expPart (fracPart ((splitSign (s.dropWhile isSpace)).2.dropWhile
          Char.isDigit)).2).2 := by
      simp only [strtod]
      rw [if_neg hconv]
    rw [h1]
    simp only [specRest]
    rw [maxTokLen_float_pos _ hconv]
    obtain ⟨_, hpos, hble, hdropeq⟩ :=
      floatBody_valid (splitSign (s.dropWhile isSpace)).2 hconv
    rw [if_neg (by omega)]
    rw [← hdropeq]
    conv_rhs => rw [← List.drop_drop]
    congr 1
    exact splitSign_drop _

/-- On an empty float match, `strtod` performs no conversion. -/
theorem strtod_noconv (s : List Char)
    (h : maxTokLen isFloatTok (s.dropWhile isSpace) = 0) : strtod s = (0, s) := by
  by_cases hconv : ((splitSign (s.dropWhile isSpace)).2.takeWhile Char.isDigit = [] ∧
      (fracPart ((splitSign (s.dropWhile isSpace)).2.dropWhile Char.isDigit)).1 = [])
  · simp only [strtod]
    rw [if_pos hconv]
  · rw [maxTokLen_float_pos _ hconv] at h
    obtain ⟨_, hpos, _, _⟩ := floatBody_valid _ hconv
    omega

/-- C5 (amended): the integer getters — `int64`, `uint32`, `uint64`, whose
`strtol`/`strtoul` calls pass base 10 — always first skip leading whitespace
and then consume exactly the longest prefix in the optionally-signed decimal
integer grammar.  The floating-point getters — `float`, `double`, and also
`int32`, whose end pointer comes from `strtod` because the `int32` branch is a
standalone `if constexpr` whose following chain falls through to the `strtod`
else — do the same with the decimal/exponential floating-point grammar on
every input free of the C99 special forms (hexadecimal, infinity, NaN), which
`std::strtod` additionally accepts and on which it consumes the special
subject sequence instead.  When the longest prefix is empty nothing at all is
consumed. -/
theorem get_consume_grammar (s : List Char) :
    (getI64 s).2 = specRest isIntTok s ∧ (getU32 s).2 = specRest isIntTok s ∧
      (getU64 s).2 = specRest isIntTok s ∧
      (noSpecial s →
        (getI32 s).2 = specRest isFloatTok s ∧ (getF32 s).2 = specRest isFloatTok s ∧
          (getF64 s).2 = specRest isFloatTok s) := by
  refine ⟨strtol_rest_eq s, ?_, ?_,
    fun _ => ⟨strtod_rest_eq s, strtod_rest_eq s, strtod_rest_eq s⟩⟩
  · show (strtoul s).2 = _
    rw [strtoul_rest]
    exact strtol_rest_eq s
  · show (strtoul s).2 = _
    rw [strtoul_rest]
    exact strtol_rest_eq s

/-- C5 witness: the concrete input `" 2.5e1x"` begins no C99 special form, and
the `double` and `int64` getters leave exactly the suffix prescribed by their
grammars — `"x"` after the float token, the whole input on the empty integer
match. -/
theorem get_consume_grammar_witness :
    (getF64 ((" 2.5e1x").toList)).2 = specRest isFloatTok ((" 2.5e1x").toList) ∧
      (getI64 ((" 2.5e1x").toList)).2 = specRest isIntTok ((" 2.5e1x").toList) :=
  ⟨((get_consume_grammar ((" 2.5e1x").toList)).2.2.2 (by decide)).2.2,
   (get_consume_grammar ((" 2.5e1x").toList)).1⟩

/-- C6 (amended): when the input after leading whitespace has no nonempty
prefix in the requested type's effective numeric grammar — the decimal integer
grammar for `int64`, `uint32`, `uint64`, the decimal/exponential
floating-point grammar for `int32`, `float`, `double`, the latter three on
inputs free of the C99 special forms (hexadecimal, infinity, NaN) that
`std::strtod` additionally accepts — the getter returns zero and consumes
nothing: the scan pointer is left unchanged, and no error is ever signalled
for malformed attribute text. -/
theorem get_empty_match_zero (s : List Char) :
    (maxTokLen isIntTok (s.dropWhile isSpace) = 0 →
      getI64 s = (0, s) ∧ getU32 s = (0, s) ∧ getU64 s = (0, s)) ∧
    (noSpecial s → maxTokLen isFloatTok (s.dropWhile isSpace) = 0 →
      getI32 s = (0, s) ∧ getF32 s = (0, s) ∧ getF64 s = (0, s)) := by
  constructor
  · intro h
    refine ⟨strtol_noconv s h, ?_, strtoul_noconv s h⟩
    show (Int.emod (strtoul s).1 (2 ^ 32), (strtoul s).2) = (0, s)
    rw [strtoul_noconv s h]
    simp only [Prod.mk.injEq]
    exact ⟨by decide, by trivial⟩
  · intro _ h
    have hd := strtod_noconv s h
    refine ⟨?_, hd, hd⟩
    show (ratTrunc (strtod s).1, (strtod s).2) = (0, s)
    rw [hd]
    simp only [Prod.mk.injEq]
    exact ⟨by decide, by trivial⟩

/-- C6 witness: the concrete input `"abc"` begins no C99 special form and has
no integer-grammar and no float-grammar prefix; the `int64` and `int32`
getters return zero and leave the input unconsumed. -/
theorem get_empty_match_zero_witness :
    getI64 (("abc").toList) = (0, ("abc").toList) ∧
      getI32 (("abc").toList) = (0, ("abc").toList) :=
  ⟨((get_empty_match_zero (("abc").toList)).1 (by decide)).1,
   ((get_empty_match_zero (("abc").toList)).2 (by decide) (by decide)).1⟩

/-- C9 counterexample: the handle `mmBadr` satisfies every precondition listed
by the claim (`0 ≤ n ≤ nnz_`, `nnz_ > 0`, `0 ≤ i_ ≤ e_` with `e_` the mapped
length), yet the backward scan of `edge 1` reads offset `1 = e_`, outside the
mapped interval `[i_, e_)`. -/
theorem edge_reads_bounds_ce :
    (0 : Int) ≤ 1 ∧ (1 : Int) ≤ mmBadr.nnz_ ∧ 0 < mmBadr.nnz_ ∧
      0 ≤ mmBadr.i_ ∧ mmBadr.i_ ≤ mmBadr.e_ ∧ mmBadr.e_ = (mmBadr.data.length : Int) ∧
      ¬ (∀ p ∈ mmBadr.edgeReads 1, mmBadr.i_ ≤ p ∧ p < mmBadr.e_) := by
  decide

end Mmio
